import Mathlib

/-!
Verification development for the intraprocedural optimization pass in
src/p2.cpp (dead-code sweep, instruction simplification, redundant-load
elimination, store-to-load forwarding) together with the dominance-scoped
common-subexpression-elimination engine described by the design document.

The embedding is shallow: a Value is identified by a numeric id (standing
for pointer identity in the host IR) together with a type id; an
Instruction carries an opcode, a result type, an ordered operand list and
a volatility flag. Basic blocks are instruction lists, functions are block
lists, modules are function lists. Erasure is modelled by collecting the
ids of erased instructions, and replaceAllUsesWith by an ordered
substitution list applied to every instruction; each traversal applies the
pending substitutions to an instruction exactly when it examines it, which
reproduces the in-place mutation order of the C++ code.
-/

namespace P2

/-- A value reference: id is the identity (pointer equality in the host IR),
ty is the type of the value. -/
structure Value where
  id : Nat
  ty : Nat
deriving DecidableEq, Repr

/-- Instruction opcodes, grouped the way src/p2.cpp tests them with isa.
The constructor other covers ordinary side-effect-free value computations
(add, mul, icmp, gep, ...); effectful covers remaining instructions for
which mayHaveSideEffects returns true (fence, atomicrmw, ...). -/
inductive Opcode where
  | load
  | store
  | alloca
  | fcmp
  | call
  | vaarg
  | br
  | ret
  | other (n : Nat)
  | effectful (n : Nat)
deriving DecidableEq, Repr

/-- An instruction: identity, opcode, result type, ordered operands,
volatility flag (meaningful for memory instructions). -/
structure Instr where
  id : Nat
  opcode : Opcode
  ty : Nat
  operands : List Value
  volatile : Bool
deriving DecidableEq, Repr

/-- getOperand of the C++ Instruction interface. -/
def Instr.operand (i : Instr) (k : Nat) : Value := i.operands.getD k ⟨0, 0⟩

/-- Instruction.isTerminator of the host IR: br and ret are the terminators. -/
def Instr.isTerminator (i : Instr) : Bool :=
  match i.opcode with
  | .br => true
  | .ret => true
  | _ => false

/-- Instruction.mayHaveSideEffects of the host IR: stores, calls, va_arg and
other effectful instructions always; loads exactly when volatile. -/
def Instr.mayHaveSideEffects (i : Instr) : Bool :=
  match i.opcode with
  | .store => true
  | .load => i.volatile
  | .call => true
  | .vaarg => true
  | .effectful _ => true
  | _ => false

abbrev Block := List Instr
abbrev Func := List Block
abbrev IRModule := List Func

/-- One replaceAllUsesWith event: the id being replaced and the replacement
value. -/
abbrev Subst := Nat × Value

/-- Apply one replaceAllUsesWith event to the operand list of an
instruction. -/
def applySub (i : Instr) (s : Subst) : Instr :=
  { i with operands := i.operands.map (fun v => if v.id = s.1 then s.2 else v) }

/-- Apply a list of replaceAllUsesWith events in order. -/
def applySubs (pend : List Subst) (i : Instr) : Instr :=
  pend.foldl applySub i

/-- ignoreForCSE of src/p2.cpp: loads, stores, allocas, fcmps, calls, va_args
and terminators are not candidates for CSE. -/
def ignoreForCSE (i : Instr) : Bool :=
  if i.opcode = Opcode.load ∨ i.opcode = Opcode.store ∨ i.opcode = Opcode.alloca ∨
     i.opcode = Opcode.fcmp ∨ i.opcode = Opcode.call ∨ i.opcode = Opcode.vaarg ∨
     i.isTerminator = true
  then true else false

/-- The descending operand comparison loop of isLiteralMatch in src/p2.cpp:
compares operand identities at positions c-1, ..., 0. -/
def opsMatchDown (a b : Instr) : Nat → Bool
  | 0 => true
  | c + 1 => if (a.operand c).id = (b.operand c).id then opsMatchDown a b c else false

/-- isLiteralMatch of src/p2.cpp: same opcode, same result type, same operand
count, and pairwise identical operand identities in order. -/
def isLiteralMatch (a b : Instr) : Bool :=
  if a.opcode = b.opcode ∧ a.ty = b.ty ∧ a.operands.length = b.operands.length
  then opsMatchDown a b a.operands.length
  else false

/-- shouldRemoveTrivialDeadCode of src/p2.cpp. The use_empty query is passed
in by the caller because it depends on the current state of the whole
function. -/
def shouldRemoveTrivialDeadCode (x : Instr) (useEmpty : Bool) : Bool :=
  if x.opcode = Opcode.call ∨ x.mayHaveSideEffects = true ∨ x.isTerminator = true
  then false
  else useEmpty

/-- use_empty of the host IR, over the current function state: the function f
minus the already erased instructions er contains no instruction with an
operand whose id is vid. -/
def useEmptyIn (f : Func) (er : List Nat) (vid : Nat) : Bool :=
  f.all (fun b => b.all (fun i =>
    er.contains i.id || i.operands.all (fun v => decide (v.id ≠ vid))))

/-- The inner loop of runCSEBasic in src/p2.cpp over one basic block. The
skip flag models the iterator position after an erasure: the C++ code
increments the iterator before erasing and the for loop increments it again,
so the element right after an erased one is not examined. Returns the
accumulated erased ids and the number of instructions removed. -/
def deadGo (f : Func) : List Nat → Bool → List Instr → List Nat × Nat
  | er, _, [] => (er, 0)
  | er, true, _ :: rest => deadGo f er false rest
  | er, false, i :: rest =>
    if shouldRemoveTrivialDeadCode i (useEmptyIn f er i.id) = true then
      let r := deadGo f (i.id :: er) true rest
      (r.1, r.2 + 1)
    else
      deadGo f er false rest

/-- runCSEBasic block loop over all blocks of a function. -/
def deadBlocks (f : Func) : List Nat → List Block → List Nat × Nat
  | er, [] => (er, 0)
  | er, b :: bs =>
    let r := deadGo f er false b
    let r2 := deadBlocks f r.1 bs
    (r2.1, r.2 + r2.2)

/-- Remove the instructions whose ids were erased from a block. -/
def eraseIn (er : List Nat) (b : Block) : Block :=
  b.filter (fun i => !(er.contains i.id))

/-- runCSEBasic of src/p2.cpp restricted to one function: the trivial
dead-code sweep. -/
def runCSEBasicFunc (f : Func) : Func × Nat :=
  let r := deadBlocks f [] f
  (f.map (eraseIn r.1), r.2)

/-- Run a per-function pass over every function of the module, summing the
statistic counter exactly as the global llvm Statistic objects do. -/
def runPass (g : Func → Func × Nat) : IRModule → IRModule × Nat
  | [] => ([], 0)
  | f :: fs =>
    let r := g f
    let r2 := runPass g fs
    (r.1 :: r2.1, r.2 + r2.2)

/-- runCSEBasic of src/p2.cpp: the dead-code sweep over the module,
counting into CSEDead. -/
def runCSEBasic (m : IRModule) : IRModule × Nat := runPass runCSEBasicFunc m

/-- The inner loop of SimplifyInstructionPass of src/p2.cpp over one block.
ora is the external SimplifyInstruction oracle: some v means the oracle
found an equivalent existing value v, in which case the code replaces all
uses and erases the instruction (with the same iterator skip as the
dead-code sweep). -/
def simpGo (ora : Instr → Option Value) :
    List Subst → List Nat → Bool → List Instr → List Subst × List Nat × Nat
  | pend, er, _, [] => (pend, er, 0)
  | pend, er, true, _ :: rest => simpGo ora pend er false rest
  | pend, er, false, i :: rest =>
    match ora (applySubs pend i) with
    | some v =>
      let r := simpGo ora (pend ++ [(i.id, v)]) (i.id :: er) true rest
      (r.1, r.2.1, r.2.2 + 1)
    | none => simpGo ora pend er false rest

/-- SimplifyInstructionPass block loop over all blocks of a function. -/
def simpBlocks (ora : Instr → Option Value) :
    List Subst → List Nat → List Block → List Subst × List Nat × Nat
  | pend, er, [] => (pend, er, 0)
  | pend, er, b :: bs =>
    let r := simpGo ora pend er false b
    let r2 := simpBlocks ora r.1 r.2.1 bs
    (r2.1, r2.2.1, r.2.2 + r2.2.2)

/-- SimplifyInstructionPass of src/p2.cpp restricted to one function. -/
def SimplifyInstructionPassFunc (ora : Instr → Option Value) (f : Func) : Func × Nat :=
  let r := simpBlocks ora [] [] f
  (f.map (fun b => (eraseIn r.2.1 b).map (applySubs r.1)), r.2.2)

/-- SimplifyInstructionPass of src/p2.cpp, counting into CSESimplify. -/
def SimplifyInstructionPass (ora : Instr → Option Value) (m : IRModule) : IRModule × Nat :=
  runPass (SimplifyInstructionPassFunc ora) m

/-- RemoveRedundantLoadAferLoad of src/p2.cpp (name as in the source): the
forward scan from just after a load L. A matching non-volatile load is
replaced by L and erased; because eraseFromParent returns the following
iterator and the for loop increments again, the element after an erased
load is skipped. A store ends the scan. Any other instruction, including a
non-matching or volatile load, is scanned past. -/
def RemoveRedundantLoadAferLoad (L : Instr) :
    List Subst → List Nat → Bool → List Instr → List Subst × List Nat × Nat
  | pend, er, sk, [] =>
    let _ := sk
    (pend, er, 0)
  | pend, er, sk, n :: rest =>
    if er.contains n.id then RemoveRedundantLoadAferLoad L pend er sk rest
    else if sk then RemoveRedundantLoadAferLoad L pend er false rest
    else
      let n2 := applySubs pend n
      if n2.opcode = Opcode.load ∧ n2.volatile = false then
        if isLiteralMatch (applySubs pend L) n2 = true then
          let r := RemoveRedundantLoadAferLoad L
            (pend ++ [(n.id, ⟨L.id, L.ty⟩)]) (n.id :: er) true rest
          (r.1, r.2.1, r.2.2 + 1)
        else RemoveRedundantLoadAferLoad L pend er false rest
      else if n2.opcode = Opcode.store then (pend, er, 0)
      else RemoveRedundantLoadAferLoad L pend er false rest

/-- EliminatRedundantLoadPass block loop (name as in the source): every
instruction that is a load, volatile or not, starts a scan over the rest of
the block. -/
def loadBlockGo : List Subst → List Nat → List Instr → List Subst × List Nat × Nat
  | pend, er, [] => (pend, er, 0)
  | pend, er, i :: rest =>
    if er.contains i.id then loadBlockGo pend er rest
    else if i.opcode = Opcode.load then
      let r := RemoveRedundantLoadAferLoad i pend er false rest
      let r2 := loadBlockGo r.1 r.2.1 rest
      (r2.1, r2.2.1, r.2.2 + r2.2.2)
    else loadBlockGo pend er rest

/-- EliminatRedundantLoadPass over the blocks of one function. -/
def loadBlocks : List Subst → List Nat → List Block → List Subst × List Nat × Nat
  | pend, er, [] => (pend, er, 0)
  | pend, er, b :: bs =>
    let r := loadBlockGo pend er b
    let r2 := loadBlocks r.1 r.2.1 bs
    (r2.1, r2.2.1, r.2.2 + r2.2.2)

/-- EliminatRedundantLoadPass of src/p2.cpp restricted to one function. -/
def EliminatRedundantLoadPassFunc (f : Func) : Func × Nat :=
  let r := loadBlocks [] [] f
  (f.map (fun b => (eraseIn r.2.1 b).map (applySubs r.1)), r.2.2)

/-- EliminatRedundantLoadPass of src/p2.cpp, counting into CSELdElim. -/
def EliminatRedundantLoadPass (m : IRModule) : IRModule × Nat :=
  runPass EliminatRedundantLoadPassFunc m

/-- RemoveRedundantStoreAndLoadAfterStore of src/p2.cpp: the forward scan
from just after a store S. The first branch fires for a non-volatile load
whose address operand is the store instruction S itself (the comparison in
the source is next_inst->getOperand(0) == store) and whose result type
equals the type of the stored value; it then forwards the stored value and
erases the load, with the same iterator skip as the other scans. The second
branch returns at any store, any remaining load (hence any volatile load)
or any side-effecting instruction. The last component records where the
scan stopped: some id of the boundary instruction, or none when the scan
ran to the end of the block. -/
def RemoveRedundantStoreAndLoadAfterStore (S : Instr) :
    List Subst → List Nat → Bool → List Instr → List Subst × List Nat × Nat × Option Nat
  | pend, er, sk, [] =>
    let _ := sk
    (pend, er, 0, none)
  | pend, er, sk, n :: rest =>
    if er.contains n.id then RemoveRedundantStoreAndLoadAfterStore S pend er sk rest
    else if sk then RemoveRedundantStoreAndLoadAfterStore S pend er false rest
    else
      let n2 := applySubs pend n
      let S2 := applySubs pend S
      if n2.opcode = Opcode.load ∧ n2.volatile = false then
        if (n2.operand 0).id = S.id ∧ n2.ty = (S2.operand 0).ty then
          let r := RemoveRedundantStoreAndLoadAfterStore S
            (pend ++ [(n.id, S2.operand 0)]) (n.id :: er) true rest
          (r.1, r.2.1, r.2.2.1 + 1, r.2.2.2)
        else RemoveRedundantStoreAndLoadAfterStore S pend er false rest
      else if n2.opcode = Opcode.store ∨ n2.opcode = Opcode.load ∨
              n2.mayHaveSideEffects = true then
        (pend, er, 0, some n.id)
      else RemoveRedundantStoreAndLoadAfterStore S pend er false rest

/-- EliminateLoadAndStorePass block loop: every store starts a scan over the
rest of the block. -/
def storeBlockGo : List Subst → List Nat → List Instr → List Subst × List Nat × Nat
  | pend, er, [] => (pend, er, 0)
  | pend, er, i :: rest =>
    if er.contains i.id then storeBlockGo pend er rest
    else if i.opcode = Opcode.store then
      let r := RemoveRedundantStoreAndLoadAfterStore i pend er false rest
      let r2 := storeBlockGo r.1 r.2.1 rest
      (r2.1, r2.2.1, r.2.2.1 + r2.2.2)
    else storeBlockGo pend er rest

/-- EliminateLoadAndStorePass over the blocks of one function. -/
def storeBlocks : List Subst → List Nat → List Block → List Subst × List Nat × Nat
  | pend, er, [] => (pend, er, 0)
  | pend, er, b :: bs =>
    let r := storeBlockGo pend er b
    let r2 := storeBlocks r.1 r.2.1 bs
    (r2.1, r2.2.1, r.2.2 + r2.2.2)

/-- EliminateLoadAndStorePass of src/p2.cpp restricted to one function. -/
def EliminateLoadAndStorePassFunc (f : Func) : Func × Nat :=
  let r := storeBlocks [] [] f
  (f.map (fun b => (eraseIn r.2.1 b).map (applySubs r.1)), r.2.2)

/-- EliminateLoadAndStorePass of src/p2.cpp, counting into CSEStore2Load. -/
def EliminateLoadAndStorePass (m : IRModule) : IRModule × Nat :=
  runPass EliminateLoadAndStorePassFunc m

/-- The six effect counters of src/p2.cpp. cseElim and stElim are reset to
zero by the driver and never incremented anywhere in the source: the basic
pass only removes dead code and the store-elimination branch is commented
out. -/
structure Counters where
  dead : Nat
  simplified : Nat
  cseElim : Nat
  ldElim : Nat
  store2load : Nat
  stElim : Nat
deriving DecidableEq, Repr

/-- CommonSubexpressionElimination of src/p2.cpp: the driver. It runs the
dead-code sweep, the simplification pass, the redundant-load pass and the
store-to-load pass in that order and reports the counters. -/
def CommonSubexpressionElimination (ora : Instr → Option Value) (m : IRModule) :
    IRModule × Counters :=
  let r1 := runCSEBasic m
  let r2 := SimplifyInstructionPass ora r1.1
  let r3 := EliminatRedundantLoadPass r2.1
  let r4 := EliminateLoadAndStorePass r3.1
  (r4.1, ⟨r1.2, r2.2, 0, r3.2, r4.2, 0⟩)

/-! Concrete programs used to exercise the passes. Value ids: the pointer p
is ⟨11,7⟩, the pointer q is ⟨12,7⟩, the stored value v1 is ⟨10,5⟩, the
pointer a is ⟨20,7⟩, the arguments x and y are ⟨100,5⟩ and ⟨101,5⟩. -/

/-- store v1, p: a store of value v1 (type 5) to pointer p. -/
def store1 : Instr := ⟨1, .store, 0, [⟨10, 5⟩, ⟨11, 7⟩], false⟩

/-- load p with result type 5, matching the type of v1. -/
def loadp : Instr := ⟨2, .load, 5, [⟨11, 7⟩], false⟩

/-- load q with result type 5. -/
def loadq : Instr := ⟨4, .load, 5, [⟨12, 7⟩], false⟩

/-- load p with result type 5, distinct identity from loadp. -/
def loadp2 : Instr := ⟨5, .load, 5, [⟨11, 7⟩], false⟩

/-- ret void. -/
def retv : Instr := ⟨3, .ret, 0, [], false⟩

/-- The store-to-load forwarding scenario block of the design document:
store p, v1 followed directly by a type-matching load of p. -/
def fwdFunc : Func := [[store1, loadp, retv]]

/-- An unused add of the two arguments, identity 6. -/
def addU1 : Instr := ⟨6, .other 0, 5, [⟨100, 5⟩, ⟨101, 5⟩], false⟩

/-- A second unused add of the two arguments, identity 7. -/
def addU2 : Instr := ⟨7, .other 0, 5, [⟨100, 5⟩, ⟨101, 5⟩], false⟩

/-- A function whose entry block is two trivially dead adds and a return. -/
def deadFunc : Func := [[addU1, addU2, retv]]

/-- load a with result type 5, identity 41. -/
def loadA1 : Instr := ⟨41, .load, 5, [⟨20, 7⟩], false⟩

/-- load a with result type 5, identity 42. -/
def loadA2 : Instr := ⟨42, .load, 5, [⟨20, 7⟩], false⟩

/-- load a with result type 5, identity 43. -/
def loadA3 : Instr := ⟨43, .load, 5, [⟨20, 7⟩], false⟩

/-- An add consuming the first load so the loads are not trivially dead. -/
def addLoads : Instr := ⟨44, .other 0, 5, [⟨41, 5⟩, ⟨41, 5⟩], false⟩

/-- store c to pointer b. -/
def storeBC : Instr := ⟨45, .store, 0, [⟨30, 5⟩, ⟨31, 7⟩], false⟩

/-- The oracle of record for the concrete runs: SimplifyInstruction returns
null on an add of two distinct opaque arguments, on loads of opaque
pointers and on terminators, so on these programs it never fires. -/
def oraNone : Instr → Option Value := fun _ => none

/-- C1. The spec asserts that in the block store p, v1 followed by a
type-matching non-volatile load of p, the store-to-load forwarding pass
replaces the load by v1, erases it, and bumps the forwarding counter once.
The source is a slip: the match condition at src/p2.cpp:340 compares the
address operand of the load with the store instruction itself instead of
with the pointer operand of the store, so the forwarding branch never
fires. The first two conjuncts show that the concrete block is a genuine
forwarding opportunity — the address of the load is the pointer operand of
the store and the types agree; the pass nevertheless returns the module
unchanged with the CSEStore2Load counter still zero. -/
theorem c1_store_forward_noop :
    loadp.operand 0 = store1.operand 1 ∧
    loadp.ty = (store1.operand 0).ty ∧
    EliminateLoadAndStorePass [fwdFunc] = ([fwdFunc], 0) := by
  refine ⟨rfl, rfl, ?_⟩
  decide

/-- C3. The spec (and the comment at src/p2.cpp:364) say the scan from a
store stops at the first subsequent store, load of any address, or
side-effecting instruction, so in the block store p, v1; load q; load p the
scan should stop at the load of q. In the source a non-volatile load always
enters the forwarding branch and never reaches the stop branch, so the scan
examines the load of q, the load of p and the terminator and runs off the
end of the block: the recorded boundary is none rather than the identity of
the load of q. The block is still left unchanged, but only because the
forwarding condition never fires. -/
theorem c3_store_scan_does_not_stop_at_load :
    RemoveRedundantStoreAndLoadAfterStore store1 [] [] false [loadq, loadp2, retv] =
      ([], [], 0, none) ∧
    EliminateLoadAndStorePass [[[store1, loadq, loadp2, retv]]] =
      ([[[store1, loadq, loadp2, retv]]], 0) := by
  constructor
  · decide
  · decide

/-- C4. The spec requires that a traversal that erases the current
instruction resumes at the instruction immediately following it, so that
the dead-code sweep examines every instruction exactly once. In the source
the iterator is incremented once by hand before eraseFromParent and once
more by the for loop, so the instruction after an erased one is skipped:
on a block of two trivially dead adds followed by a return, the sweep
erases only the first add and leaves the second — although, as the last
conjunct shows, the second add satisfies shouldRemoveTrivialDeadCode in
the state the sweep reaches it in — and CSEDead ends at 1 instead of 2. -/
theorem c4_dead_sweep_skips_after_erase :
    runCSEBasic [deadFunc] = ([[[addU2, retv]]], 1) ∧
    shouldRemoveTrivialDeadCode addU2 (useEmptyIn deadFunc [addU1.id] addU2.id) = true := by
  constructor
  · decide
  · decide

/-- C5. The spec says the scan from a non-volatile load L redirects and
erases every subsequent literal-matching non-volatile load up to the first
store. The same iterator slip as in the dead-code sweep makes the scan skip
the element following each erased load: on a block of three identical loads
of a, the scan from the first load erases the second and skips the third,
and the third — a literal match of the first, with no intervening store —
survives the whole pass, with CSELdElim ending at 1 instead of 2. -/
theorem c5_load_pass_skips_following_load :
    isLiteralMatch loadA1 loadA3 = true ∧
    EliminatRedundantLoadPass [[[loadA1, loadA2, loadA3, retv]]] =
      ([[[loadA1, loadA3, retv]]], 1) := by
  constructor
  · decide
  · decide

/-- C8. The spec asserts the pipeline is idempotent: a second run on the
output of a first run reports zero in every effect counter. Because the
dead-code sweep skips the instruction after each erased one, the first run
on a block of two trivially dead adds removes only the first add, and the
second run removes the second: CSEDead is 1, not 0, on the second run. -/
theorem c8_pipeline_not_idempotent :
    (CommonSubexpressionElimination oraNone
      (CommonSubexpressionElimination oraNone [deadFunc]).1).2 =
      ⟨1, 0, 0, 0, 0, 0⟩ := by
  decide

/-- opsMatchDown a b n holds exactly when the operand identities agree at
every position below n. -/
theorem opsMatchDown_iff (a b : Instr) :
    ∀ n : Nat, opsMatchDown a b n = true ↔ ∀ k, k < n → (a.operand k).id = (b.operand k).id := by
  intro n
  induction n with
  | zero => simp [opsMatchDown]
  | succ c ih =>
    constructor
    · intro h k hk
      rw [opsMatchDown] at h
      split at h
      · rcases Nat.lt_succ_iff_lt_or_eq.mp hk with hk' | hk'
        · exact (ih.mp h) k hk'
        · subst hk'; assumption
      · exact absurd h (by simp)
    · intro h
      rw [opsMatchDown]
      split
      · exact ih.mpr (fun k hk => h k (Nat.lt_succ_of_lt hk))
      · exact absurd (h c (Nat.lt_succ_self c)) (by assumption)

/-- The structural description of isLiteralMatch: same opcode, same result
type, same operand count, pairwise identical operand identities. -/
def literalMatchSpec (a b : Instr) : Prop :=
  a.opcode = b.opcode ∧ a.ty = b.ty ∧ a.operands.length = b.operands.length ∧
    ∀ k, k < a.operands.length → (a.operand k).id = (b.operand k).id

theorem isLiteralMatch_iff (a b : Instr) :
    isLiteralMatch a b = true ↔ literalMatchSpec a b := by
  unfold isLiteralMatch literalMatchSpec
  split
  · next hc =>
    rw [opsMatchDown_iff]
    exact ⟨fun h => ⟨hc.1, hc.2.1, hc.2.2, h⟩, fun h => h.2.2.2⟩
  · next hc =>
    constructor
    · intro h; exact absurd h (by simp)
    · intro h; exact absurd ⟨h.1, h.2.1, h.2.2.1⟩ hc

/-- C6. literalMatch is reflexive and symmetric, and holds exactly when the
two instructions have the same opcode, the same result type, the same
operand count and identical operand identities at every position in order;
in particular it is false whenever some operand identity differs, whatever
the operand types are, since the characterization constrains only
identities. -/
theorem c6_literal_match_equivalence (a b : Instr) :
    isLiteralMatch a a = true ∧
    isLiteralMatch a b = isLiteralMatch b a ∧
    (isLiteralMatch a b = true ↔ literalMatchSpec a b) := by
  refine ⟨?_, ?_, isLiteralMatch_iff a b⟩
  · exact (isLiteralMatch_iff a a).mpr ⟨rfl, rfl, rfl, fun _ _ => rfl⟩
  · have hsym : literalMatchSpec a b ↔ literalMatchSpec b a := by
      unfold literalMatchSpec
      constructor
      · rintro ⟨h1, h2, h3, h4⟩
        exact ⟨h1.symm, h2.symm, h3.symm, fun k hk => (h4 k (h3 ▸ hk)).symm⟩
      · rintro ⟨h1, h2, h3, h4⟩
        exact ⟨h1.symm, h2.symm, h3.symm, fun k hk => (h4 k (h3 ▸ hk)).symm⟩
    have := (isLiteralMatch_iff a b).trans (hsym.trans (isLiteralMatch_iff b a).symm)
    cases hab : isLiteralMatch a b with
    | true => exact (this.mp hab).symm
    | false =>
      cases hba : isLiteralMatch b a with
      | true => exact absurd (this.mpr hba) (by simp [hab])
      | false => rfl

/-! C9: the store-to-load pass is the identity on well-formed input. -/

/-- All instructions of a function. -/
def instrsOfFunc (f : Func) : List Instr := f.flatten

/-- Well-formed addressing: no load in the function takes the identity of a
store instruction as its address operand. In well-formed host IR this always
holds, because a store has void type while a load address has pointer
type. -/
def noStoreAddressed (f : Func) : Prop :=
  ∀ i ∈ instrsOfFunc f, i.opcode = Opcode.load →
    ∀ s ∈ instrsOfFunc f, s.opcode = Opcode.store → (i.operand 0).id ≠ s.id

instance noStoreAddressedDec (f : Func) : Decidable (noStoreAddressed f) := by
  unfold noStoreAddressed
  infer_instance

theorem applySubs_nil (i : Instr) : applySubs [] i = i := rfl

theorem contains_nil_nat (x : Nat) : ([] : List Nat).contains x = false := rfl

theorem eraseIn_nil (b : Block) : eraseIn [] b = b := by
  induction b with
  | nil => rfl
  | cons i rest ih =>
    unfold eraseIn at ih ⊢
    rw [List.filter_cons, ih]
    rfl

theorem map_applySubs_nil (b : Block) : b.map (applySubs []) = b := by
  induction b with
  | nil => rfl
  | cons i rest ih => simp only [List.map_cons, applySubs_nil, ih]

/-- Under well-formed addressing the scan of RemoveRedundantStoreAndLoadAfterStore
never forwards anything: it leaves the substitution list and the erased set
empty and the counter at zero. -/
theorem storeScan_id (S : Instr) (l : List Instr)
    (h : ∀ n ∈ l, n.opcode = Opcode.load → (n.operand 0).id ≠ S.id) :
    ∀ sk, ∃ st, RemoveRedundantStoreAndLoadAfterStore S [] [] sk l = ([], [], 0, st) := by
  induction l with
  | nil => intro sk; exact ⟨none, rfl⟩
  | cons n rest ih =>
    have hrest : ∀ x ∈ rest, x.opcode = Opcode.load → (x.operand 0).id ≠ S.id :=
      fun x hx => h x (List.mem_cons_of_mem _ hx)
    intro sk
    rw [RemoveRedundantStoreAndLoadAfterStore]
    simp only [contains_nil_nat, Bool.false_eq_true, if_false, applySubs_nil]
    cases sk with
    | true =>
      simp only [if_true]
      exact ih hrest false
    | false =>
      simp only [Bool.false_eq_true, if_false]
      by_cases hload : n.opcode = Opcode.load ∧ n.volatile = false
      · have hne : ¬((n.operand 0).id = S.id ∧ n.ty = (S.operand 0).ty) :=
          fun hc => h n (List.mem_cons_self n rest) hload.1 hc.1
        rw [if_pos hload, if_neg hne]
        exact ih hrest false
      · rw [if_neg hload]
        by_cases hstop : n.opcode = Opcode.store ∨ n.opcode = Opcode.load ∨
            n.mayHaveSideEffects = true
        · rw [if_pos hstop]
          exact ⟨some n.id, rfl⟩
        · rw [if_neg hstop]
          exact ih hrest false

/-- Under well-formed addressing the block loop of EliminateLoadAndStorePass
changes nothing. -/
theorem storeBlockGo_id (b : List Instr)
    (h : ∀ i ∈ b, i.opcode = Opcode.store → ∀ n ∈ b, n.opcode = Opcode.load →
      (n.operand 0).id ≠ i.id) :
    ∀ l : List Instr, (∀ x ∈ l, x ∈ b) →
      storeBlockGo [] [] l = ([], [], 0) := by
  intro l
  induction l with
  | nil => intro _; rfl
  | cons i rest ih =>
    intro hsub
    have hrest : ∀ x ∈ rest, x ∈ b := fun x hx => hsub x (List.mem_cons_of_mem _ hx)
    rw [storeBlockGo]
    simp only [contains_nil_nat, Bool.false_eq_true, if_false]
    by_cases hst : i.opcode = Opcode.store
    · rw [if_pos hst]
      have hscan : ∀ n ∈ rest, n.opcode = Opcode.load → (n.operand 0).id ≠ i.id :=
        fun n hn hld => h i (hsub i (List.mem_cons_self i rest)) hst n (hrest n hn) hld
      obtain ⟨st, heq⟩ := storeScan_id i rest hscan false
      rw [heq]
      simpa using ih hrest
    · rw [if_neg hst]
      exact ih hrest

/-- Under well-formed addressing EliminateLoadAndStorePass leaves every block
of every function of the module unchanged and reports zero forwardings. -/
theorem storeBlocks_id (f : Func) (h : noStoreAddressed f) :
    ∀ bs : List Block, (∀ b ∈ bs, b ∈ f) →
      storeBlocks [] [] bs = ([], [], 0) := by
  intro bs
  induction bs with
  | nil => intro _; rfl
  | cons b rest ih =>
    intro hsub
    have hb : b ∈ f := hsub b (List.mem_cons_self b rest)
    have hbpair : ∀ i ∈ b, i.opcode = Opcode.store → ∀ n ∈ b, n.opcode = Opcode.load →
        (n.operand 0).id ≠ i.id := by
      intro i hi hst n hn hld
      have hif : i ∈ instrsOfFunc f := List.mem_flatten.mpr ⟨b, hb, hi⟩
      have hnf : n ∈ instrsOfFunc f := List.mem_flatten.mpr ⟨b, hb, hn⟩
      exact h n hnf hld i hif hst
    rw [storeBlocks]
    rw [storeBlockGo_id b hbpair b (fun x hx => hx)]
    have := ih (fun x hx => hsub x (List.mem_cons_of_mem _ hx))
    simpa using this

theorem mapReconstruct_nil (f : Func) :
    f.map (fun b => (eraseIn [] b).map (applySubs [])) = f := by
  induction f with
  | nil => rfl
  | cons b bs ih => rw [List.map_cons, eraseIn_nil, map_applySubs_nil, ih]

theorem EliminateLoadAndStorePassFunc_id (f : Func) (h : noStoreAddressed f) :
    EliminateLoadAndStorePassFunc f = (f, 0) := by
  unfold EliminateLoadAndStorePassFunc
  rw [storeBlocks_id f h f (fun b hb => hb)]
  show (f.map (fun b => (eraseIn [] b).map (applySubs [])), 0) = (f, 0)
  rw [mapReconstruct_nil]

/-- C9. On any module in which no load takes the identity of a store
instruction as its address operand — which covers all well-formed IR, since
a store is a void-typed value and a load address has pointer type — the
store-to-load pass of src/p2.cpp changes nothing: the pass is the identity
on the module and CSEStore2Load stays zero; moreover, for every oracle and
every module the driver reports CSEStElim = 0, the store-elimination branch
being commented out in the source. -/
theorem c9_store_pass_identity (m : IRModule) (h : ∀ f ∈ m, noStoreAddressed f) :
    EliminateLoadAndStorePass m = (m, 0) ∧
    ∀ (ora : Instr → Option Value) (m2 : IRModule),
      (CommonSubexpressionElimination ora m2).2.stElim = 0 := by
  constructor
  · unfold EliminateLoadAndStorePass
    induction m with
    | nil => rfl
    | cons f fs ih =>
      rw [runPass]
      rw [EliminateLoadAndStorePassFunc_id f (h f (List.mem_cons_self f fs))]
      have := ih (fun g hg => h g (List.mem_cons_of_mem _ hg))
      rw [this]
      rfl
  · intro ora m2
    rfl

/-- C9 witness: the forwarding-scenario module is well addressed and the
store pass leaves it untouched. -/
theorem c9_store_pass_identity_witness :
    (∀ f ∈ [fwdFunc], noStoreAddressed f) ∧
    EliminateLoadAndStorePass [fwdFunc] = ([fwdFunc], 0) := by
  refine ⟨by decide, ?_⟩
  exact (c9_store_pass_identity [fwdFunc] (by decide)).1

/-! C10: terminators and volatile memory operations are preserved. The
signature of an instruction is its identity, opcode and volatility; keepSig
selects the instructions the claim says must survive every sub-pass. -/

/-- The instructions the claim protects: terminators and volatile loads and
stores. -/
def keepSig (i : Instr) : Bool :=
  i.isTerminator ||
    (i.volatile && (decide (i.opcode = Opcode.load) || decide (i.opcode = Opcode.store)))

/-- The part of an instruction that identifies it independently of operand
rewrites: identity, opcode, volatility. -/
def sigOf (i : Instr) : Nat × Opcode × Bool := (i.id, i.opcode, i.volatile)

/-- The protected instructions of a block, in order, by signature. -/
def blockSigs (b : Block) : List (Nat × Opcode × Bool) := (b.filter keepSig).map sigOf

def funcSigs (f : Func) : List (List (Nat × Opcode × Bool)) := f.map blockSigs

def modSigs (m : IRModule) : List (List (List (Nat × Opcode × Bool))) := m.map funcSigs

/-- The instruction identities of a function. -/
def funcIds (f : Func) : List Nat := (instrsOfFunc f).map (fun i => i.id)

/-- The terminator at the end of a block survives into the output block, at
the end, with its identity and opcode. -/
def lastTermOk (b bOut : Block) : Prop :=
  ∀ t, b.getLast? = some t → t.isTerminator = true →
    ∃ u, bOut.getLast? = some u ∧ u.id = t.id ∧ u.opcode = t.opcode

/-- The shape every pass reconstruction has: drop the erased instructions of
every block and apply the accumulated substitutions. -/
def funcShape (er : List Nat) (pend : List Subst) (f : Func) : Func :=
  f.map (fun b => (eraseIn er b).map (applySubs pend))

theorem applySubs_cons (s : Subst) (pend : List Subst) (i : Instr) :
    applySubs (s :: pend) i = applySubs pend (applySub i s) := rfl

/-- applySubs only rewrites the operand list. -/
theorem applySubs_shape (pend : List Subst) :
    ∀ i, applySubs pend i = { i with operands := (applySubs pend i).operands } := by
  induction pend with
  | nil => intro i; rfl
  | cons s pend ih => intro i; exact ih (applySub i s)

theorem applySubs_id_eq (pend : List Subst) (i : Instr) :
    (applySubs pend i).id = i.id := by
  rw [applySubs_shape]

theorem applySubs_opcode_eq (pend : List Subst) (i : Instr) :
    (applySubs pend i).opcode = i.opcode := by
  rw [applySubs_shape]

theorem keepSig_applySubs (pend : List Subst) (i : Instr) :
    keepSig (applySubs pend i) = keepSig i := by
  rw [applySubs_shape]
  rfl

theorem sigOf_applySubs (pend : List Subst) (i : Instr) :
    sigOf (applySubs pend i) = sigOf i := by
  rw [applySubs_shape]
  rfl

/-- A surviving last element of a block is the last element of the filtered
block. -/
theorem filter_getLast? (p : Instr → Bool) (b : Block) (t : Instr)
    (h : b.getLast? = some t) (hp : p t = true) :
    (b.filter p).getLast? = some t := by
  induction b using List.reverseRecOn with
  | nil => simp at h
  | append_singleton bs x _ =>
    rw [List.getLast?_concat] at h
    obtain rfl : x = t := by injection h
    rw [List.filter_append]
    simp only [List.filter, hp]
    exact List.getLast?_concat _

/-- Removing erased instructions does not change the protected subsequence
when no protected instruction is erased. -/
theorem erase_filter_keep (er : List Nat) :
    ∀ b : Block, (∀ i ∈ b, keepSig i = true → er.contains i.id = false) →
      (eraseIn er b).filter keepSig = b.filter keepSig := by
  intro b
  induction b with
  | nil => intro _; rfl
  | cons i rest ih =>
    intro hkeep
    have hrest : ∀ x ∈ rest, keepSig x = true → er.contains x.id = false :=
      fun x hx => hkeep x (List.mem_cons_of_mem _ hx)
    unfold eraseIn
    rw [List.filter_cons]
    by_cases hc : er.contains i.id = true
    · have hki : keepSig i = false := by
        cases hk : keepSig i
        · rfl
        · rw [hkeep i (List.mem_cons_self i rest) hk] at hc
          exact absurd hc (by simp)
      simp only [hc, Bool.not_true, Bool.false_eq_true, if_false]
      have := ih hrest
      unfold eraseIn at this
      rw [this, List.filter_cons, hki]
      rfl
    · have hc' : er.contains i.id = false := by
        cases h2 : er.contains i.id
        · rfl
        · exact absurd h2 hc
      simp only [hc', Bool.not_false, if_true]
      rw [List.filter_cons, List.filter_cons]
      have := ih hrest
      unfold eraseIn at this
      rw [this]

/-- Reconstruction preserves the protected subsequence of a block. -/
theorem block_reconstruct_sigs (er : List Nat) (pend : List Subst) (b : Block)
    (hkeep : ∀ i ∈ b, keepSig i = true → er.contains i.id = false) :
    blockSigs ((eraseIn er b).map (applySubs pend)) = blockSigs b := by
  unfold blockSigs
  rw [List.filter_map]
  rw [List.filter_congr (fun x _ => by
    show (keepSig ∘ applySubs pend) x = keepSig x
    exact keepSig_applySubs pend x)]
  rw [List.map_map]
  rw [List.map_congr_left (fun x _ => by
    show (sigOf ∘ applySubs pend) x = sigOf x
    exact sigOf_applySubs pend x)]
  rw [erase_filter_keep er b hkeep]

/-- Reconstruction keeps the terminator at the end of a block. -/
theorem block_reconstruct_last (er : List Nat) (pend : List Subst) (b : Block)
    (hkeep : ∀ i ∈ b, keepSig i = true → er.contains i.id = false) :
    lastTermOk b ((eraseIn er b).map (applySubs pend)) := by
  intro t ht htt
  have hkt : keepSig t = true := by unfold keepSig; rw [htt]; rfl
  have htm : t ∈ b := List.mem_of_mem_getLast? ht
  have hc : er.contains t.id = false := hkeep t htm hkt
  have h1 : (eraseIn er b).getLast? = some t := by
    unfold eraseIn
    exact filter_getLast? _ b t ht (by rw [hc]; rfl)
  rw [List.getLast?_map, h1]
  exact ⟨applySubs pend t, rfl, applySubs_id_eq pend t, applySubs_opcode_eq pend t⟩

/-- Componentwise sublists flatten to a sublist. -/
theorem flatten_sublist_of_forall₂ :
    ∀ {L1 L2 : List (List Nat)}, List.Forall₂ List.Sublist L1 L2 →
      L1.flatten.Sublist L2.flatten := by
  intro L1 L2 h
  induction h with
  | nil => exact List.Sublist.refl _
  | cons hab _ ih => exact List.Sublist.append hab ih

/-- Pointwise relations between two maps over the same list. -/
theorem forall₂_map_map {α β γ : Type} {R : β → γ → Prop} {l : List α}
    (g1 : α → β) (g2 : α → γ)
    (h : ∀ a ∈ l, R (g1 a) (g2 a)) : List.Forall₂ R (l.map g1) (l.map g2) := by
  induction l with
  | nil => exact List.Forall₂.nil
  | cons a rest ih =>
    exact List.Forall₂.cons (h a (List.mem_cons_self a rest))
      (ih (fun x hx => h x (List.mem_cons_of_mem _ hx)))

/-- In a function with no duplicate identities, an erased-id set that only
names unprotected instructions never names a protected one. -/
theorem hkeep_of_her (f : Func) (er : List Nat)
    (hnd : (funcIds f).Nodup)
    (her : ∀ x ∈ er, ∃ j ∈ instrsOfFunc f, j.id = x ∧ keepSig j = false) :
    ∀ b ∈ f, ∀ i ∈ b, keepSig i = true → er.contains i.id = false := by
  intro b hb i hi hk
  cases hc : er.contains i.id
  · rfl
  · exfalso
    have hmem : i.id ∈ er := List.elem_iff.mp hc
    obtain ⟨j, hj, hjid, hjk⟩ := her i.id hmem
    have hif : i ∈ instrsOfFunc f := List.mem_flatten.mpr ⟨b, hb, hi⟩
    have : i = j := List.inj_on_of_nodup_map hnd hif hj (by rw [hjid])
    rw [this, hjk] at hk
    exact absurd hk (by simp)

/-- Reconstruction preserves the protected subsequences, the terminator
placement and the absence of duplicate identities. -/
theorem funcShape_ok (f : Func) (er : List Nat) (pend : List Subst)
    (hnd : (funcIds f).Nodup)
    (her : ∀ x ∈ er, ∃ j ∈ instrsOfFunc f, j.id = x ∧ keepSig j = false) :
    funcSigs (funcShape er pend f) = funcSigs f ∧
    List.Forall₂ lastTermOk f (funcShape er pend f) ∧
    (funcIds (funcShape er pend f)).Nodup := by
  have hkeep := hkeep_of_her f er hnd her
  refine ⟨?_, ?_, ?_⟩
  · unfold funcSigs funcShape
    rw [List.map_map]
    exact List.map_congr_left (fun b hb => by
      show blockSigs ((eraseIn er b).map (applySubs pend)) = blockSigs b
      exact block_reconstruct_sigs er pend b (hkeep b hb))
  · unfold funcShape
    rw [List.forall₂_map_right_iff]
    rw [List.forall₂_same]
    exact fun b hb => block_reconstruct_last er pend b (hkeep b hb)
  · have hblock : ∀ b : Block,
        ((((eraseIn er b).map (applySubs pend)).map (fun i => i.id)).Sublist
          (b.map (fun i => i.id))) := by
      intro b
      rw [List.map_map]
      rw [List.map_congr_left (fun x _ => by
        show (applySubs pend x).id = x.id
        exact applySubs_id_eq pend x)]
      exact List.Sublist.map _ (List.filter_sublist b)
    have hsub : (funcIds (funcShape er pend f)).Sublist (funcIds f) := by
      unfold funcIds instrsOfFunc funcShape
      rw [List.map_flatten, List.map_flatten, List.map_map]
      refine flatten_sublist_of_forall₂ ?_
      refine forall₂_map_map _ _ ?_
      intro b _
      exact hblock b
    exact hsub.nodup hnd

/-- An instruction the dead-code predicate accepts is neither a terminator
nor a volatile memory operation. -/
theorem keepSig_false_of_shouldRemove (i : Instr) (u : Bool)
    (h : shouldRemoveTrivialDeadCode i u = true) : keepSig i = false := by
  unfold shouldRemoveTrivialDeadCode at h
  by_cases hc : i.opcode = Opcode.call ∨ i.mayHaveSideEffects = true ∨ i.isTerminator = true
  · rw [if_pos hc] at h
    exact absurd h (by simp)
  · push_neg at hc
    obtain ⟨_, h2, h3⟩ := hc
    have h2' : i.mayHaveSideEffects = false := by
      cases hh : i.mayHaveSideEffects
      · rfl
      · exact absurd hh h2
    have h3' : i.isTerminator = false := by
      cases hh : i.isTerminator
      · rfl
      · exact absurd hh h3
    unfold keepSig
    rw [h3']
    cases hv : i.volatile
    · rfl
    · unfold Instr.mayHaveSideEffects at h2'
      cases hop : i.opcode <;> rw [hop] at h2' <;> simp_all

/-- A non-volatile load is not protected. -/
theorem keepSig_false_of_plain_load (i : Instr)
    (h1 : i.opcode = Opcode.load) (h2 : i.volatile = false) : keepSig i = false := by
  unfold keepSig Instr.isTerminator
  rw [h1, h2]
  rfl

/-- Every id the dead sweep erases from a scanned list belongs to an
unprotected instruction of the list. -/
theorem deadGo_er (f : Func) :
    ∀ (l : List Instr) (er : List Nat) (sk : Bool),
      ∀ x ∈ (deadGo f er sk l).1, x ∈ er ∨ ∃ i ∈ l, i.id = x ∧ keepSig i = false := by
  intro l
  induction l with
  | nil =>
    intro er sk x hx
    cases sk <;> exact Or.inl hx
  | cons i rest ih =>
    intro er sk x hx
    cases sk with
    | true =>
      rcases ih er false x hx with h | ⟨j, hj, hjx⟩
      · exact Or.inl h
      · exact Or.inr ⟨j, List.mem_cons_of_mem _ hj, hjx⟩
    | false =>
      by_cases hrem : shouldRemoveTrivialDeadCode i (useEmptyIn f er i.id) = true
      · rw [deadGo, if_pos hrem] at hx
        rcases ih (i.id :: er) true x hx with h | ⟨j, hj, hjx⟩
        · rcases List.mem_cons.mp h with h | h
          · exact Or.inr ⟨i, List.mem_cons_self i rest,
              h.symm, keepSig_false_of_shouldRemove i _ hrem⟩
          · exact Or.inl h
        · exact Or.inr ⟨j, List.mem_cons_of_mem _ hj, hjx⟩
      · rw [deadGo, if_neg hrem] at hx
        rcases ih er false x hx with h | ⟨j, hj, hjx⟩
        · exact Or.inl h
        · exact Or.inr ⟨j, List.mem_cons_of_mem _ hj, hjx⟩

/-- Block-loop version of deadGo_er, relative to the whole function. -/
theorem deadBlocks_er (f : Func) :
    ∀ (bs : List Block), (∀ b ∈ bs, b ∈ f) → ∀ (er : List Nat),
      ∀ x ∈ (deadBlocks f er bs).1,
        x ∈ er ∨ ∃ j ∈ instrsOfFunc f, j.id = x ∧ keepSig j = false := by
  intro bs
  induction bs with
  | nil => intro _ er x hx; exact Or.inl hx
  | cons b rest ih =>
    intro hsub er x hx
    rw [deadBlocks] at hx
    rcases ih (fun c hc => hsub c (List.mem_cons_of_mem _ hc)) (deadGo f er false b).1 x hx
      with h | h
    · rcases deadGo_er f b er false x h with h2 | ⟨i, hi, hix⟩
      · exact Or.inl h2
      · exact Or.inr ⟨i, List.mem_flatten.mpr ⟨b, hsub b (List.mem_cons_self b rest), hi⟩, hix⟩
    · exact Or.inr h

/-- The dead sweep of one function preserves signatures, the terminators and
the identity discipline. -/
theorem runCSEBasicFunc_ok (f : Func) (hnd : (funcIds f).Nodup) :
    funcSigs (runCSEBasicFunc f).1 = funcSigs f ∧
    List.Forall₂ lastTermOk f (runCSEBasicFunc f).1 ∧
    (funcIds (runCSEBasicFunc f).1).Nodup := by
  have her : ∀ x ∈ (deadBlocks f [] f).1,
      ∃ j ∈ instrsOfFunc f, j.id = x ∧ keepSig j = false := by
    intro x hx
    rcases deadBlocks_er f f (fun b hb => hb) [] x hx with h | h
    · exact absurd h (List.not_mem_nil x)
    · exact h
  have hshape : (runCSEBasicFunc f).1 = funcShape (deadBlocks f [] f).1 [] f := by
    unfold runCSEBasicFunc funcShape
    exact List.map_congr_left (fun b _ => (map_applySubs_nil (eraseIn (deadBlocks f [] f).1 b)).symm)
  rw [hshape]
  exact funcShape_ok f (deadBlocks f [] f).1 [] hnd her

/-- Every id the simplification pass erases belongs to an unprotected
instruction, provided the oracle never simplifies a protected one. -/
theorem simpGo_er (ora : Instr → Option Value)
    (hora : ∀ i, keepSig i = true → ora i = none) :
    ∀ (l : List Instr) (pend : List Subst) (er : List Nat) (sk : Bool),
      ∀ x ∈ (simpGo ora pend er sk l).2.1,
        x ∈ er ∨ ∃ i ∈ l, i.id = x ∧ keepSig i = false := by
  intro l
  induction l with
  | nil =>
    intro pend er sk x hx
    cases sk <;> exact Or.inl hx
  | cons i rest ih =>
    intro pend er sk x hx
    cases sk with
    | true =>
      rcases ih pend er false x hx with h | ⟨j, hj, hjx⟩
      · exact Or.inl h
      · exact Or.inr ⟨j, List.mem_cons_of_mem _ hj, hjx⟩
    | false =>
      cases hor : ora (applySubs pend i) with
      | some v =>
        rw [simpGo, hor] at hx
        have hki : keepSig i = false := by
          cases hk : keepSig i
          · rfl
          · rw [hora (applySubs pend i) (by rw [keepSig_applySubs, hk])] at hor
            exact absurd hor (by simp)
        rcases ih (pend ++ [(i.id, v)]) (i.id :: er) true x hx with h | ⟨j, hj, hjx⟩
        · rcases List.mem_cons.mp h with h | h
          · exact Or.inr ⟨i, List.mem_cons_self i rest, h.symm, hki⟩
          · exact Or.inl h
        · exact Or.inr ⟨j, List.mem_cons_of_mem _ hj, hjx⟩
      | none =>
        rw [simpGo, hor] at hx
        rcases ih pend er false x hx with h | ⟨j, hj, hjx⟩
        · exact Or.inl h
        · exact Or.inr ⟨j, List.mem_cons_of_mem _ hj, hjx⟩

/-- Block-loop version of simpGo_er. -/
theorem simpBlocks_er (ora : Instr → Option Value)
    (hora : ∀ i, keepSig i = true → ora i = none) (f : Func) :
    ∀ (bs : List Block), (∀ b ∈ bs, b ∈ f) → ∀ (pend : List Subst) (er : List Nat),
      ∀ x ∈ (simpBlocks ora pend er bs).2.1,
        x ∈ er ∨ ∃ j ∈ instrsOfFunc f, j.id = x ∧ keepSig j = false := by
  intro bs
  induction bs with
  | nil => intro _ pend er x hx; exact Or.inl hx
  | cons b rest ih =>
    intro hsub pend er x hx
    rw [simpBlocks] at hx
    rcases ih (fun c hc => hsub c (List.mem_cons_of_mem _ hc))
      (simpGo ora pend er false b).1 (simpGo ora pend er false b).2.1 x hx with h | h
    · rcases simpGo_er ora hora b pend er false x h with h2 | ⟨i, hi, hix⟩
      · exact Or.inl h2
      · exact Or.inr ⟨i, List.mem_flatten.mpr ⟨b, hsub b (List.mem_cons_self b rest), hi⟩, hix⟩
    · exact Or.inr h

/-- The simplification pass of one function preserves signatures, the
terminators and the identity discipline. -/
theorem SimplifyInstructionPassFunc_ok (ora : Instr → Option Value)
    (hora : ∀ i, keepSig i = true → ora i = none) (f : Func) (hnd : (funcIds f).Nodup) :
    funcSigs (SimplifyInstructionPassFunc ora f).1 = funcSigs f ∧
    List.Forall₂ lastTermOk f (SimplifyInstructionPassFunc ora f).1 ∧
    (funcIds (SimplifyInstructionPassFunc ora f).1).Nodup := by
  have her : ∀ x ∈ (simpBlocks ora [] [] f).2.1,
      ∃ j ∈ instrsOfFunc f, j.id = x ∧ keepSig j = false := by
    intro x hx
    rcases simpBlocks_er ora hora f f (fun b hb => hb) [] [] x hx with h | h
    · exact absurd h (List.not_mem_nil x)
    · exact h
  have hshape : (SimplifyInstructionPassFunc ora f).1 =
      funcShape (simpBlocks ora [] [] f).2.1 (simpBlocks ora [] [] f).1 f := rfl
  rw [hshape]
  exact funcShape_ok f _ _ hnd her

/-- Every id the load scan erases belongs to an unprotected instruction. -/
theorem loadScan_er (L : Instr) :
    ∀ (l : List Instr) (pend : List Subst) (er : List Nat) (sk : Bool),
      ∀ x ∈ (RemoveRedundantLoadAferLoad L pend er sk l).2.1,
        x ∈ er ∨ ∃ i ∈ l, i.id = x ∧ keepSig i = false := by
  intro l
  induction l with
  | nil =>
    intro pend er sk x hx
    cases sk <;> exact Or.inl hx
  | cons n rest ih =>
    intro pend er sk x hx
    by_cases hctn : er.contains n.id = true
    · rw [RemoveRedundantLoadAferLoad, if_pos hctn] at hx
      rcases ih pend er sk x hx with h | ⟨j, hj, hjx⟩
      · exact Or.inl h
      · exact Or.inr ⟨j, List.mem_cons_of_mem _ hj, hjx⟩
    · rw [RemoveRedundantLoadAferLoad, if_neg hctn] at hx
      cases sk with
      | true =>
        rw [if_pos rfl] at hx
        rcases ih pend er false x hx with h | ⟨j, hj, hjx⟩
        · exact Or.inl h
        · exact Or.inr ⟨j, List.mem_cons_of_mem _ hj, hjx⟩
      | false =>
        rw [if_neg (by simp)] at hx
        by_cases hload : (applySubs pend n).opcode = Opcode.load ∧
            (applySubs pend n).volatile = false
        · rw [if_pos hload] at hx
          by_cases hm : isLiteralMatch (applySubs pend L) (applySubs pend n) = true
          · rw [if_pos hm] at hx
            have hkn : keepSig n = false := by
              rw [← keepSig_applySubs pend n]
              exact keepSig_false_of_plain_load _ hload.1 hload.2
            rcases ih (pend ++ [(n.id, ⟨L.id, L.ty⟩)]) (n.id :: er) true x hx
              with h | ⟨j, hj, hjx⟩
            · rcases List.mem_cons.mp h with h | h
              · exact Or.inr ⟨n, List.mem_cons_self n rest, h.symm, hkn⟩
              · exact Or.inl h
            · exact Or.inr ⟨j, List.mem_cons_of_mem _ hj, hjx⟩
          · rw [if_neg hm] at hx
            rcases ih pend er false x hx with h | ⟨j, hj, hjx⟩
            · exact Or.inl h
            · exact Or.inr ⟨j, List.mem_cons_of_mem _ hj, hjx⟩
        · rw [if_neg hload] at hx
          by_cases hst : (applySubs pend n).opcode = Opcode.store
          · rw [if_pos hst] at hx
            exact Or.inl hx
          · rw [if_neg hst] at hx
            rcases ih pend er false x hx with h | ⟨j, hj, hjx⟩
            · exact Or.inl h
            · exact Or.inr ⟨j, List.mem_cons_of_mem _ hj, hjx⟩

/-- Block-loop version of loadScan_er. -/
theorem loadBlockGo_er :
    ∀ (l : List Instr) (pend : List Subst) (er : List Nat),
      ∀ x ∈ (loadBlockGo pend er l).2.1,
        x ∈ er ∨ ∃ i ∈ l, i.id = x ∧ keepSig i = false := by
  intro l
  induction l with
  | nil => intro pend er x hx; exact Or.inl hx
  | cons i rest ih =>
    intro pend er x hx
    by_cases hctn : er.contains i.id = true
    · rw [loadBlockGo, if_pos hctn] at hx
      rcases ih pend er x hx with h | ⟨j, hj, hjx⟩
      · exact Or.inl h
      · exact Or.inr ⟨j, List.mem_cons_of_mem _ hj, hjx⟩
    · by_cases hld : i.opcode = Opcode.load
      · rw [loadBlockGo, if_neg hctn, if_pos hld] at hx
        rcases ih (RemoveRedundantLoadAferLoad i pend er false rest).1
          (RemoveRedundantLoadAferLoad i pend er false rest).2.1 x hx with h | ⟨j, hj, hjx⟩
        · rcases loadScan_er i rest pend er false x h with h2 | ⟨j, hj, hjx⟩
          · exact Or.inl h2
          · exact Or.inr ⟨j, List.mem_cons_of_mem _ hj, hjx⟩
        · exact Or.inr ⟨j, List.mem_cons_of_mem _ hj, hjx⟩
      · rw [loadBlockGo, if_neg hctn, if_neg hld] at hx
        rcases ih pend er x hx with h | ⟨j, hj, hjx⟩
        · exact Or.inl h
        · exact Or.inr ⟨j, List.mem_cons_of_mem _ hj, hjx⟩

/-- Function-level version of loadScan_er. -/
theorem loadBlocks_er (f : Func) :
    ∀ (bs : List Block), (∀ b ∈ bs, b ∈ f) → ∀ (pend : List Subst) (er : List Nat),
      ∀ x ∈ (loadBlocks pend er bs).2.1,
        x ∈ er ∨ ∃ j ∈ instrsOfFunc f, j.id = x ∧ keepSig j = false := by
  intro bs
  induction bs with
  | nil => intro _ pend er x hx; exact Or.inl hx
  | cons b rest ih =>
    intro hsub pend er x hx
    rw [loadBlocks] at hx
    rcases ih (fun c hc => hsub c (List.mem_cons_of_mem _ hc))
      (loadBlockGo pend er b).1 (loadBlockGo pend er b).2.1 x hx with h | h
    · rcases loadBlockGo_er b pend er x h with h2 | ⟨i, hi, hix⟩
      · exact Or.inl h2
      · exact Or.inr ⟨i, List.mem_flatten.mpr ⟨b, hsub b (List.mem_cons_self b rest), hi⟩, hix⟩
    · exact Or.inr h

/-- The redundant-load pass of one function preserves signatures, the
terminators and the identity discipline. -/
theorem EliminatRedundantLoadPassFunc_ok (f : Func) (hnd : (funcIds f).Nodup) :
    funcSigs (EliminatRedundantLoadPassFunc f).1 = funcSigs f ∧
    List.Forall₂ lastTermOk f (EliminatRedundantLoadPassFunc f).1 ∧
    (funcIds (EliminatRedundantLoadPassFunc f).1).Nodup := by
  have her : ∀ x ∈ (loadBlocks [] [] f).2.1,
      ∃ j ∈ instrsOfFunc f, j.id = x ∧ keepSig j = false := by
    intro x hx
    rcases loadBlocks_er f f (fun b hb => hb) [] [] x hx with h | h
    · exact absurd h (List.not_mem_nil x)
    · exact h
  have hshape : (EliminatRedundantLoadPassFunc f).1 =
      funcShape (loadBlocks [] [] f).2.1 (loadBlocks [] [] f).1 f := rfl
  rw [hshape]
  exact funcShape_ok f _ _ hnd her

/-- Every id the store scan erases belongs to an unprotected instruction. -/
theorem storeScan_er (S : Instr) :
    ∀ (l : List Instr) (pend : List Subst) (er : List Nat) (sk : Bool),
      ∀ x ∈ (RemoveRedundantStoreAndLoadAfterStore S pend er sk l).2.1,
        x ∈ er ∨ ∃ i ∈ l, i.id = x ∧ keepSig i = false := by
  intro l
  induction l with
  | nil =>
    intro pend er sk x hx
    cases sk <;> exact Or.inl hx
  | cons n rest ih =>
    intro pend er sk x hx
    by_cases hctn : er.contains n.id = true
    · rw [RemoveRedundantStoreAndLoadAfterStore, if_pos hctn] at hx
      rcases ih pend er sk x hx with h | ⟨j, hj, hjx⟩
      · exact Or.inl h
      · exact Or.inr ⟨j, List.mem_cons_of_mem _ hj, hjx⟩
    · rw [RemoveRedundantStoreAndLoadAfterStore, if_neg hctn] at hx
      cases sk with
      | true =>
        rw [if_pos rfl] at hx
        rcases ih pend er false x hx with h | ⟨j, hj, hjx⟩
        · exact Or.inl h
        · exact Or.inr ⟨j, List.mem_cons_of_mem _ hj, hjx⟩
      | false =>
        rw [if_neg (by simp)] at hx
        by_cases hload : (applySubs pend n).opcode = Opcode.load ∧
            (applySubs pend n).volatile = false
        · rw [if_pos hload] at hx
          by_cases hm : ((applySubs pend n).operand 0).id = S.id ∧
              (applySubs pend n).ty = ((applySubs pend S).operand 0).ty
          · rw [if_pos hm] at hx
            have hkn : keepSig n = false := by
              rw [← keepSig_applySubs pend n]
              exact keepSig_false_of_plain_load _ hload.1 hload.2
            rcases ih (pend ++ [(n.id, (applySubs pend S).operand 0)]) (n.id :: er) true x hx
              with h | ⟨j, hj, hjx⟩
            · rcases List.mem_cons.mp h with h | h
              · exact Or.inr ⟨n, List.mem_cons_self n rest, h.symm, hkn⟩
              · exact Or.inl h
            · exact Or.inr ⟨j, List.mem_cons_of_mem _ hj, hjx⟩
          · rw [if_neg hm] at hx
            rcases ih pend er false x hx with h | ⟨j, hj, hjx⟩
            · exact Or.inl h
            · exact Or.inr ⟨j, List.mem_cons_of_mem _ hj, hjx⟩
        · rw [if_neg hload] at hx
          by_cases hst : (applySubs pend n).opcode = Opcode.store ∨
              (applySubs pend n).opcode = Opcode.load ∨
              (applySubs pend n).mayHaveSideEffects = true
          · rw [if_pos hst] at hx
            exact Or.inl hx
          · rw [if_neg hst] at hx
            rcases ih pend er false x hx with h | ⟨j, hj, hjx⟩
            · exact Or.inl h
            · exact Or.inr ⟨j, List.mem_cons_of_mem _ hj, hjx⟩

/-- Block-loop version of storeScan_er. -/
theorem storeBlockGo_er :
    ∀ (l : List Instr) (pend : List Subst) (er : List Nat),
      ∀ x ∈ (storeBlockGo pend er l).2.1,
        x ∈ er ∨ ∃ i ∈ l, i.id = x ∧ keepSig i = false := by
  intro l
  induction l with
  | nil => intro pend er x hx; exact Or.inl hx
  | cons i rest ih =>
    intro pend er x hx
    by_cases hctn : er.contains i.id = true
    · rw [storeBlockGo, if_pos hctn] at hx
      rcases ih pend er x hx with h | ⟨j, hj, hjx⟩
      · exact Or.inl h
      · exact Or.inr ⟨j, List.mem_cons_of_mem _ hj, hjx⟩
    · by_cases hst : i.opcode = Opcode.store
      · rw [storeBlockGo, if_neg hctn, if_pos hst] at hx
        rcases ih (RemoveRedundantStoreAndLoadAfterStore i pend er false rest).1
          (RemoveRedundantStoreAndLoadAfterStore i pend er false rest).2.1 x hx
          with h | ⟨j, hj, hjx⟩
        · rcases storeScan_er i rest pend er false x h with h2 | ⟨j, hj, hjx⟩
          · exact Or.inl h2
          · exact Or.inr ⟨j, List.mem_cons_of_mem _ hj, hjx⟩
        · exact Or.inr ⟨j, List.mem_cons_of_mem _ hj, hjx⟩
      · rw [storeBlockGo, if_neg hctn, if_neg hst] at hx
        rcases ih pend er x hx with h | ⟨j, hj, hjx⟩
        · exact Or.inl h
        · exact Or.inr ⟨j, List.mem_cons_of_mem _ hj, hjx⟩

/-- Function-level version of storeScan_er. -/
theorem storeBlocks_er (f : Func) :
    ∀ (bs : List Block), (∀ b ∈ bs, b ∈ f) → ∀ (pend : List Subst) (er : List Nat),
      ∀ x ∈ (storeBlocks pend er bs).2.1,
        x ∈ er ∨ ∃ j ∈ instrsOfFunc f, j.id = x ∧ keepSig j = false := by
  intro bs
  induction bs with
  | nil => intro _ pend er x hx; exact Or.inl hx
  | cons b rest ih =>
    intro hsub pend er x hx
    rw [storeBlocks] at hx
    rcases ih (fun c hc => hsub c (List.mem_cons_of_mem _ hc))
      (storeBlockGo pend er b).1 (storeBlockGo pend er b).2.1 x hx with h | h
    · rcases storeBlockGo_er b pend er x h with h2 | ⟨i, hi, hix⟩
      · exact Or.inl h2
      · exact Or.inr ⟨i, List.mem_flatten.mpr ⟨b, hsub b (List.mem_cons_self b rest), hi⟩, hix⟩
    · exact Or.inr h

/-- The store-to-load pass of one function preserves signatures, the
terminators and the identity discipline. -/
theorem EliminateLoadAndStorePassFunc_ok (f : Func) (hnd : (funcIds f).Nodup) :
    funcSigs (EliminateLoadAndStorePassFunc f).1 = funcSigs f ∧
    List.Forall₂ lastTermOk f (EliminateLoadAndStorePassFunc f).1 ∧
    (funcIds (EliminateLoadAndStorePassFunc f).1).Nodup := by
  have her : ∀ x ∈ (storeBlocks [] [] f).2.1,
      ∃ j ∈ instrsOfFunc f, j.id = x ∧ keepSig j = false := by
    intro x hx
    rcases storeBlocks_er f f (fun b hb => hb) [] [] x hx with h | h
    · exact absurd h (List.not_mem_nil x)
    · exact h
  have hshape : (EliminateLoadAndStorePassFunc f).1 =
      funcShape (storeBlocks [] [] f).2.1 (storeBlocks [] [] f).1 f := rfl
  rw [hshape]
  exact funcShape_ok f _ _ hnd her

/-- Module-level lifting of a per-function preservation result. -/
theorem runPass_ok (g : Func → Func × Nat)
    (hg : ∀ f, (funcIds f).Nodup →
      funcSigs (g f).1 = funcSigs f ∧ List.Forall₂ lastTermOk f (g f).1 ∧
      (funcIds (g f).1).Nodup) :
    ∀ m : IRModule, (∀ f ∈ m, (funcIds f).Nodup) →
      modSigs (runPass g m).1 = modSigs m ∧
      List.Forall₂ (List.Forall₂ lastTermOk) m (runPass g m).1 ∧
      ∀ f ∈ (runPass g m).1, (funcIds f).Nodup := by
  intro m
  induction m with
  | nil => intro _; exact ⟨rfl, List.Forall₂.nil, fun f hf => absurd hf (List.not_mem_nil f)⟩
  | cons f fs ih =>
    intro hnd
    obtain ⟨h1, h2, h3⟩ := hg f (hnd f (List.mem_cons_self f fs))
    obtain ⟨g1, g2, g3⟩ := ih (fun q hq => hnd q (List.mem_cons_of_mem _ hq))
    refine ⟨?_, ?_, ?_⟩
    · show funcSigs (g f).1 :: modSigs (runPass g fs).1 = funcSigs f :: modSigs fs
      rw [h1, g1]
    · exact List.Forall₂.cons h2 g2
    · intro q hq
      rcases List.mem_cons.mp hq with h | h
      · rw [h]; exact h3
      · exact g3 q h

/-- Transitivity of componentwise Forall₂ for a transitive relation. -/
theorem forall₂_trans_of {α : Type} {R : α → α → Prop}
    (h : ∀ a b c, R a b → R b c → R a c) :
    ∀ {l1 l2 l3 : List α}, List.Forall₂ R l1 l2 → List.Forall₂ R l2 l3 →
      List.Forall₂ R l1 l3 := by
  intro l1 l2 l3 h12
  induction h12 generalizing l3 with
  | nil => intro h23; cases h23; exact List.Forall₂.nil
  | cons hab _ ih =>
    intro h23
    cases h23 with
    | cons hbc h23' => exact List.Forall₂.cons (h _ _ _ hab hbc) (ih h23')

theorem lastTermOk_trans (a b c : Block) (h1 : lastTermOk a b) (h2 : lastTermOk b c) :
    lastTermOk a c := by
  intro t ht htt
  obtain ⟨u, hu, huid, huop⟩ := h1 t ht htt
  have hut : u.isTerminator = true := by
    unfold Instr.isTerminator at htt ⊢
    rw [huop]
    exact htt
  obtain ⟨w, hw, hwid, hwop⟩ := h2 u hu hut
  exact ⟨w, hw, by rw [hwid, huid], by rw [hwop, huop]⟩

theorem modLastOk_trans {m1 m2 m3 : IRModule}
    (h1 : List.Forall₂ (List.Forall₂ lastTermOk) m1 m2)
    (h2 : List.Forall₂ (List.Forall₂ lastTermOk) m2 m3) :
    List.Forall₂ (List.Forall₂ lastTermOk) m1 m3 :=
  @forall₂_trans_of Func (List.Forall₂ lastTermOk)
    (fun _ _ _ ha hb => @forall₂_trans_of Block lastTermOk lastTermOk_trans _ _ _ ha hb)
    m1 m2 m3 h1 h2

/-- C10. No sub-pass of the pipeline erases a terminator or a volatile
memory operation: provided the simplification oracle never reports a value
for a terminator or volatile load or store (as SimplifyInstruction never
does, those having no value to forward), and provided instruction
identities are not duplicated (always true of host IR pointers), the whole
pipeline preserves, per block and in order, the identity, opcode and
volatility of every terminator and every volatile load and store, and every
block that ended with a terminator still ends with that same terminator. -/
theorem c10_terminators_volatiles_preserved (ora : Instr → Option Value) (m : IRModule)
    (hora : ∀ i, keepSig i = true → ora i = none)
    (hnd : ∀ f ∈ m, (funcIds f).Nodup) :
    modSigs (CommonSubexpressionElimination ora m).1 = modSigs m ∧
    List.Forall₂ (List.Forall₂ lastTermOk) m (CommonSubexpressionElimination ora m).1 := by
  obtain ⟨d1, d2, d3⟩ := runPass_ok runCSEBasicFunc
    (fun f hf => runCSEBasicFunc_ok f hf) m hnd
  obtain ⟨s1, s2, s3⟩ := runPass_ok (SimplifyInstructionPassFunc ora)
    (fun f hf => SimplifyInstructionPassFunc_ok ora hora f hf) (runCSEBasic m).1 d3
  obtain ⟨l1, l2, l3⟩ := runPass_ok EliminatRedundantLoadPassFunc
    (fun f hf => EliminatRedundantLoadPassFunc_ok f hf)
    (SimplifyInstructionPass ora (runCSEBasic m).1).1 s3
  obtain ⟨t1, t2, t3⟩ := runPass_ok EliminateLoadAndStorePassFunc
    (fun f hf => EliminateLoadAndStorePassFunc_ok f hf)
    (EliminatRedundantLoadPass (SimplifyInstructionPass ora (runCSEBasic m).1).1).1 l3
  constructor
  · show modSigs (EliminateLoadAndStorePass
      (EliminatRedundantLoadPass (SimplifyInstructionPass ora (runCSEBasic m).1).1).1).1 =
      modSigs m
    rw [show EliminateLoadAndStorePass
        (EliminatRedundantLoadPass (SimplifyInstructionPass ora (runCSEBasic m).1).1).1 =
        runPass EliminateLoadAndStorePassFunc
        (EliminatRedundantLoadPass (SimplifyInstructionPass ora (runCSEBasic m).1).1).1 from rfl]
    rw [t1]
    rw [show EliminatRedundantLoadPass (SimplifyInstructionPass ora (runCSEBasic m).1).1 =
        runPass EliminatRedundantLoadPassFunc
        (SimplifyInstructionPass ora (runCSEBasic m).1).1 from rfl]
    rw [l1]
    rw [show SimplifyInstructionPass ora (runCSEBasic m).1 =
        runPass (SimplifyInstructionPassFunc ora) (runCSEBasic m).1 from rfl]
    rw [s1]
    rw [show runCSEBasic m = runPass runCSEBasicFunc m from rfl]
    rw [d1]
  · exact modLastOk_trans d2 (modLastOk_trans s2 (modLastOk_trans l2 t2))

/-- C10 witness: the forwarding module has unique identities and the
trivial oracle never simplifies a protected instruction. -/
theorem c10_terminators_volatiles_preserved_witness :
    (∀ i, keepSig i = true → oraNone i = none) ∧
    (∀ f ∈ [fwdFunc], (funcIds f).Nodup) ∧
    modSigs (CommonSubexpressionElimination oraNone [fwdFunc]).1 = modSigs [fwdFunc] ∧
    List.Forall₂ (List.Forall₂ lastTermOk) [fwdFunc]
      (CommonSubexpressionElimination oraNone [fwdFunc]).1 := by
  have hora : ∀ i, keepSig i = true → oraNone i = none := fun _ _ => rfl
  have hnd : ∀ f ∈ [fwdFunc], (funcIds f).Nodup := by decide
  obtain ⟨h1, h2⟩ := c10_terminators_volatiles_preserved oraNone [fwdFunc] hora hnd
  exact ⟨hora, hnd, h1, h2⟩

/-! Dominance-scoped CSE (sections 4.1 and 4.4 of the design document).
The pass itself is not in src/p2.cpp: the driver there only declares and
zeroes the CSEElim counter and never calls a merging pass, so the engine is
modelled from the specification text. -/

/-- The structural key of an instruction: opcode, result type, ordered
operand identities. -/
abbrev CKey := Opcode × Nat × List Nat

def instrKey (i : Instr) : CKey := (i.opcode, i.ty, i.operands.map (fun v => v.id))

/-- An availability-table entry: the structural key, the identity of the
canonical representative instruction, and the block id and in-block index
where that instruction sits. -/
structure Entry where
  key : CKey
  iid : Nat
  bid : Nat
  idx : Nat
deriving DecidableEq, Repr

/-- An elimination event: x (identity, block, index) was erased and its uses
redirected to y (identity, block, index). -/
structure Elim where
  xId : Nat
  xBid : Nat
  xIdx : Nat
  yId : Nat
  yBid : Nat
  yIdx : Nat
deriving DecidableEq, Repr

/-- Innermost-scope-first lookup in the availability table: new entries are
pushed at the front, so the first match is the innermost visible one. -/
def lookupKey (tbl : List Entry) (k : CKey) : Option Entry :=
  tbl.find? (fun en => decide (en.key = k))

/-- Modelled from the spec: the dominator tree of section 4.1 of the design
document, which src/p2.cpp does not contain, in first-child next-sibling
form. A DomT value is a forest: node bid instrs kids sibs is a tree whose
root block has id bid and content instrs, whose children forest is kids,
followed by its sibling trees sibs. Dominance is the ancestor relation:
the block of a node dominates every block in its kids forest. -/
inductive DomT where
  | nil
  | node (bid : Nat) (instrs : List Instr) (kids : DomT) (sibs : DomT)
deriving DecidableEq, Repr

/-- Modelled from the spec: step 4 of the dominance-scoped CSE algorithm of
section 4.4, absent from src/p2.cpp. Walk one block in order, keeping a
running position counter. An eligible instruction (per ignoreForCSE of the
source) whose structural key is found in an active scope is redirected to
the entry instruction and erased, and the elimination is recorded;
otherwise it is inserted as the canonical representative for its key.
Substitutions are applied to each instruction exactly when it is
examined. -/
def cseBlockGo (bid : Nat) :
    List Entry → Nat → List Subst → List Nat → List Instr →
      List Entry × List Subst × List Nat × List Elim
  | tbl, _, pend, er, [] => (tbl, pend, er, [])
  | tbl, pos, pend, er, i :: rest =>
    let i2 := applySubs pend i
    if ignoreForCSE i2 = true then cseBlockGo bid tbl (pos + 1) pend er rest
    else
      match lookupKey tbl (instrKey i2) with
      | some en =>
        let r := cseBlockGo bid tbl (pos + 1)
          (pend ++ [(i.id, ⟨en.iid, i2.ty⟩)]) (i.id :: er) rest
        (r.1, r.2.1, r.2.2.1, ⟨i.id, bid, pos, en.iid, en.bid, en.idx⟩ :: r.2.2.2)
      | none =>
        cseBlockGo bid (⟨instrKey i2, i.id, bid, pos⟩ :: tbl) (pos + 1) pend er rest

/-- Modelled from the spec: the dominator-tree preorder walk of section 4.4,
absent from src/p2.cpp. A node processes its block extending the table,
passes the extended table to its children forest, and passes its own
incoming table — the scope popped — to its sibling forest. Substitutions
and the erased set accumulate in traversal order. -/
def cseGo : List Entry → List Subst → List Nat → DomT → List Subst × List Nat × List Elim
  | _, pend, er, .nil => (pend, er, [])
  | tbl, pend, er, .node bid instrs kids sibs =>
    let r := cseBlockGo bid tbl 0 pend er instrs
    let rk := cseGo r.1 r.2.1 r.2.2.1 kids
    let rs := cseGo tbl rk.1 rk.2.1 sibs
    (rs.1, rs.2.1, r.2.2.2 ++ rk.2.2 ++ rs.2.2)

/-- Apply the accumulated erasures and substitutions to a dominator tree. -/
def substEraseT (pend : List Subst) (er : List Nat) : DomT → DomT
  | .nil => .nil
  | .node bid instrs kids sibs =>
    .node bid ((eraseIn er instrs).map (applySubs pend))
      (substEraseT pend er kids) (substEraseT pend er sibs)

/-- Modelled from the spec: run the dominance-scoped CSE pass of section 4.4
on a dominator tree, returning the mutated tree, the elimination counter and
the recorded eliminations. -/
def runCSE (t : DomT) : DomT × Nat × List Elim :=
  let r := cseGo [] [] [] t
  (substEraseT r.1 r.2.1 t, r.2.2.length, r.2.2)

/-- A block id occurs somewhere in the forest. -/
def hasBid : DomT → Nat → Bool
  | .nil, _ => false
  | .node b _ kids sibs, a => decide (b = a) || hasBid kids a || hasBid sibs a

/-- Block a strictly dominates block c in the forest: some node with id a
has c inside its children forest. -/
def strictAnc : DomT → Nat → Nat → Bool
  | .nil, _, _ => false
  | .node b _ kids sibs, a, c =>
    (decide (b = a) && hasBid kids c) || strictAnc kids a c || strictAnc sibs a c

/-- Every elimination a block walk records erases an instruction of this
block at or after the starting position, in favor of either a table entry
or an earlier instruction of the same block. -/
theorem cseBlockGo_elims (bid : Nat) :
    ∀ (l : List Instr) (tbl : List Entry) (pos : Nat) (pend : List Subst) (er : List Nat),
      ∀ e ∈ (cseBlockGo bid tbl pos pend er l).2.2.2,
        e.xBid = bid ∧ pos ≤ e.xIdx ∧
        ((∃ en ∈ tbl, e.yId = en.iid ∧ e.yBid = en.bid ∧ e.yIdx = en.idx) ∨
         (e.yBid = bid ∧ pos ≤ e.yIdx ∧ e.yIdx < e.xIdx)) := by
  intro l
  induction l with
  | nil =>
    intro tbl pos pend er e he
    exact absurd he (List.not_mem_nil e)
  | cons i rest ih =>
    intro tbl pos pend er e he
    rw [cseBlockGo] at he
    by_cases hig : ignoreForCSE (applySubs pend i) = true
    · rw [if_pos hig] at he
      obtain ⟨h1, h2, h3⟩ := ih tbl (pos + 1) pend er e he
      refine ⟨h1, by omega, ?_⟩
      rcases h3 with h | ⟨ha, hb, hc⟩
      · exact Or.inl h
      · exact Or.inr ⟨ha, by omega, hc⟩
    · rw [if_neg hig] at he
      cases hlk : lookupKey tbl (instrKey (applySubs pend i)) with
      | some en =>
        rw [hlk] at he
        rcases List.mem_cons.mp he with h | h
        · subst h
          exact ⟨rfl, Nat.le_refl pos,
            Or.inl ⟨en, List.mem_of_find?_eq_some hlk, rfl, rfl, rfl⟩⟩
        · obtain ⟨h1, h2, h3⟩ := ih tbl (pos + 1) _ _ e h
          refine ⟨h1, by omega, ?_⟩
          rcases h3 with hh | ⟨ha, hb, hc⟩
          · exact Or.inl hh
          · exact Or.inr ⟨ha, by omega, hc⟩
      | none =>
        rw [hlk] at he
        obtain ⟨h1, h2, h3⟩ := ih (⟨instrKey (applySubs pend i), i.id, bid, pos⟩ :: tbl)
          (pos + 1) pend er e he
        refine ⟨h1, by omega, ?_⟩
        rcases h3 with ⟨en, hen, hy⟩ | ⟨ha, hb, hc⟩
        · rcases List.mem_cons.mp hen with h | h
          · subst h
            refine Or.inr ⟨hy.2.1, ?_, ?_⟩
            · rw [hy.2.2]
            · rw [hy.2.2]
              show pos < e.xIdx
              omega
          · exact Or.inl ⟨en, h, hy⟩
        · exact Or.inr ⟨ha, by omega, hc⟩

/-- Every entry in the table a block walk returns is either an incoming
entry or records an instruction of this block at or after the starting
position. -/
theorem cseBlockGo_tbl (bid : Nat) :
    ∀ (l : List Instr) (tbl : List Entry) (pos : Nat) (pend : List Subst) (er : List Nat),
      ∀ en ∈ (cseBlockGo bid tbl pos pend er l).1,
        en ∈ tbl ∨ (en.bid = bid ∧ pos ≤ en.idx) := by
  intro l
  induction l with
  | nil =>
    intro tbl pos pend er en hen
    exact Or.inl hen
  | cons i rest ih =>
    intro tbl pos pend er en hen
    rw [cseBlockGo] at hen
    by_cases hig : ignoreForCSE (applySubs pend i) = true
    · rw [if_pos hig] at hen
      rcases ih tbl (pos + 1) pend er en hen with h | ⟨h1, h2⟩
      · exact Or.inl h
      · exact Or.inr ⟨h1, by omega⟩
    · rw [if_neg hig] at hen
      cases hlk : lookupKey tbl (instrKey (applySubs pend i)) with
      | some en2 =>
        rw [hlk] at hen
        rcases ih tbl (pos + 1) _ _ en hen with h | ⟨h1, h2⟩
        · exact Or.inl h
        · exact Or.inr ⟨h1, by omega⟩
      | none =>
        rw [hlk] at hen
        rcases ih (⟨instrKey (applySubs pend i), i.id, bid, pos⟩ :: tbl)
          (pos + 1) pend er en hen with h | ⟨h1, h2⟩
        · rcases List.mem_cons.mp h with h | h
          · subst h
            exact Or.inr ⟨rfl, Nat.le_refl pos⟩
          · exact Or.inl h
        · exact Or.inr ⟨h1, by omega⟩

/-- Soundness invariant of the preorder walk: every recorded elimination
erases an instruction of some block of the forest, in favor of an incoming
table entry, a strict dominator, or an earlier instruction of the same
block. -/
theorem cseGo_elims :
    ∀ (t : DomT) (tbl : List Entry) (pend : List Subst) (er : List Nat),
      ∀ e ∈ (cseGo tbl pend er t).2.2,
        hasBid t e.xBid = true ∧
        ((∃ en ∈ tbl, e.yId = en.iid ∧ e.yBid = en.bid ∧ e.yIdx = en.idx) ∨
         strictAnc t e.yBid e.xBid = true ∨
         (e.yBid = e.xBid ∧ e.yIdx < e.xIdx)) := by
  intro t
  induction t with
  | nil =>
    intro tbl pend er e he
    exact absurd he (List.not_mem_nil e)
  | node b instrs kids sibs ihk ihs =>
    intro tbl pend er e he
    rw [cseGo] at he
    rcases List.mem_append.mp he with he | hesib
    · rcases List.mem_append.mp he with heblk | hekid
      · obtain ⟨h1, _, h3⟩ := cseBlockGo_elims b instrs tbl 0 pend er e heblk
        refine ⟨by simp [hasBid, h1], ?_⟩
        rcases h3 with h | ⟨ha, _, hc⟩
        · exact Or.inl h
        · exact Or.inr (Or.inr ⟨by rw [ha, h1], hc⟩)
      · obtain ⟨h1, h3⟩ := ihk (cseBlockGo b tbl 0 pend er instrs).1
          (cseBlockGo b tbl 0 pend er instrs).2.1
          (cseBlockGo b tbl 0 pend er instrs).2.2.1 e hekid
        refine ⟨by simp [hasBid, h1], ?_⟩
        rcases h3 with ⟨en, hen, hy⟩ | h | h
        · rcases cseBlockGo_tbl b instrs tbl 0 pend er en hen with h | ⟨ha, _⟩
          · exact Or.inl ⟨en, h, hy⟩
          · refine Or.inr (Or.inl ?_)
            have hyb : e.yBid = b := by rw [hy.2.1, ha]
            simp [strictAnc, hyb, h1]
        · refine Or.inr (Or.inl ?_)
          simp [strictAnc, h]
        · exact Or.inr (Or.inr h)
    · obtain ⟨h1, h3⟩ := ihs tbl
        (cseGo (cseBlockGo b tbl 0 pend er instrs).1
          (cseBlockGo b tbl 0 pend er instrs).2.1
          (cseBlockGo b tbl 0 pend er instrs).2.2.1 kids).1
        (cseGo (cseBlockGo b tbl 0 pend er instrs).1
          (cseBlockGo b tbl 0 pend er instrs).2.1
          (cseBlockGo b tbl 0 pend er instrs).2.2.1 kids).2.1 e hesib
      refine ⟨by simp [hasBid, h1], ?_⟩
      rcases h3 with h | h | h
      · exact Or.inl h
      · refine Or.inr (Or.inl ?_)
        simp [strictAnc, h]
      · exact Or.inr (Or.inr h)

/-- C7. Soundness of merge in the dominance-scoped CSE pass: whenever the
pass retargets the uses of an instruction x to an instruction y and erases
x, the recorded pre-mutation positions satisfy: the block of y strictly
dominates the block of x, or the two share a block and y precedes x.
Positions recorded at visit time are the pre-mutation positions, because
the walk never moves an instruction between blocks and counts every
examined instruction of a block, erased or not. The pass is modelled from
the specification, being absent from src/p2.cpp. -/
theorem c7_cse_merge_soundness (t : DomT) :
    ∀ e ∈ (runCSE t).2.2,
      strictAnc t e.yBid e.xBid = true ∨ (e.yBid = e.xBid ∧ e.yIdx < e.xIdx) := by
  intro e he
  have hrw : (runCSE t).2.2 = (cseGo [] [] [] t).2.2 := rfl
  rw [hrw] at he
  obtain ⟨_, h3⟩ := cseGo_elims t [] [] [] e he
  rcases h3 with ⟨en, hen, _⟩ | h | h
  · exact absurd hen (List.not_mem_nil en)
  · exact Or.inl h
  · exact Or.inr h

/-- An eligible add in the entry block, identity 8. -/
def addE1 : Instr := ⟨8, .other 0, 5, [⟨100, 5⟩, ⟨101, 5⟩], false⟩

/-- A literal match of addE1 in a dominated block, identity 9. -/
def addE2 : Instr := ⟨9, .other 0, 5, [⟨100, 5⟩, ⟨101, 5⟩], false⟩

/-- ret void with identity 51, for the second block of the chain tree. -/
def retE : Instr := ⟨51, .ret, 0, [], false⟩

/-- ret void with identity 52, for the third block of the sibling tree. -/
def retE2 : Instr := ⟨52, .ret, 0, [], false⟩

/-- A two-block dominator tree: block 1 with addE1 dominating block 2 with
addE2. -/
def domChain : DomT := .node 1 [addE1, retv] (.node 2 [addE2, retE] .nil .nil) .nil

/-- A dominator tree in which blocks 2 and 3 are siblings under block 1,
each holding one of the two matching adds. -/
def domSibs : DomT :=
  .node 1 [retv] (.node 2 [addE1, retE] .nil (.node 3 [addE2, retE2] .nil .nil)) .nil

/-- C7 witness: on the chain tree the pass records exactly the elimination
of addE2 in favor of addE1 and the soundness theorem applies to it. -/
theorem c7_cse_merge_soundness_witness :
    (⟨9, 2, 0, 8, 1, 0⟩ : Elim) ∈ (runCSE domChain).2.2 ∧
    (strictAnc domChain (⟨9, 2, 0, 8, 1, 0⟩ : Elim).yBid (⟨9, 2, 0, 8, 1, 0⟩ : Elim).xBid = true ∨
     ((⟨9, 2, 0, 8, 1, 0⟩ : Elim).yBid = (⟨9, 2, 0, 8, 1, 0⟩ : Elim).xBid ∧
      (⟨9, 2, 0, 8, 1, 0⟩ : Elim).yIdx < (⟨9, 2, 0, 8, 1, 0⟩ : Elim).xIdx)) := by
  refine ⟨by decide, ?_⟩
  exact c7_cse_merge_soundness domChain ⟨9, 2, 0, 8, 1, 0⟩ (by decide)

/-! Completeness of the dominance-scoped CSE pass (C2). -/

/-- All instructions of a forest, preorder. -/
def instrsOfT : DomT → List Instr
  | .nil => []
  | .node _ is kids sibs => is ++ (instrsOfT kids ++ instrsOfT sibs)

/-- All instruction identities of a forest. -/
def idsOfT (t : DomT) : List Nat := (instrsOfT t).map (fun i => i.id)

/-- All block identities of a forest. -/
def bidsOfT : DomT → List Nat
  | .nil => []
  | .node b _ kids sibs => b :: (bidsOfT kids ++ bidsOfT sibs)

/-- The content of the block with the given id, searching children before
siblings. -/
def blockOfT : DomT → Nat → Option (List Instr)
  | .nil, _ => none
  | .node b is kids sibs, a =>
    if b = a then some is
    else
      match blockOfT kids a with
      | some r => some r
      | none => blockOfT sibs a

/-- Some node with the first block id holds an instruction with the second
identity. -/
def hasInstrAt : DomT → Nat → Nat → Bool
  | .nil, _, _ => false
  | .node bb is kids sibs, b, iid =>
    (decide (bb = b) && is.any (fun i => decide (i.id = iid))) ||
      hasInstrAt kids b iid || hasInstrAt sibs b iid

/-- Operands of the forest reference only values defined outside it:
arguments, constants and globals, never an instruction of the forest. -/
def opsExternal (t : DomT) : Prop :=
  ∀ i ∈ instrsOfT t, ∀ v ∈ i.operands, v.id ∉ idsOfT t

/-- Every substitution source is a protected id. -/
def PendOk (S : List Nat) (pend : List Subst) : Prop := ∀ s ∈ pend, s.1 ∈ S

/-- The operands of the instruction avoid the protected ids and its own id
is protected. -/
def InstrOkS (S : List Nat) (i : Instr) : Prop :=
  (∀ v ∈ i.operands, v.id ∉ S) ∧ i.id ∈ S

def BOk (S : List Nat) (l : List Instr) : Prop := ∀ i ∈ l, InstrOkS S i

def TOk (S : List Nat) (t : DomT) : Prop := ∀ i ∈ instrsOfT t, InstrOkS S i

theorem applySub_no_hit (i : Instr) (s : Subst) (h : ∀ v ∈ i.operands, v.id ≠ s.1) :
    applySub i s = i := by
  unfold applySub
  have h2 : i.operands.map (fun v => if v.id = s.1 then s.2 else v) = i.operands := by
    have := List.map_congr_left (l := i.operands)
      (f := fun v => if v.id = s.1 then s.2 else v) (g := fun v => v)
      (fun v hv => if_neg (h v hv))
    rw [this, List.map_id']
  rw [h2]

theorem applySubs_no_hit (S : List Nat) (i : Instr) (hi : InstrOkS S i) :
    ∀ pend : List Subst, PendOk S pend → applySubs pend i = i := by
  intro pend
  induction pend with
  | nil => intro _; rfl
  | cons s rest ih =>
    intro hp
    rw [applySubs_cons, applySub_no_hit i s (fun v hv heq => by
      have := hi.1 v hv
      rw [heq] at this
      exact this (hp s (List.mem_cons_self s rest)))]
    exact ih (fun q hq => hp q (List.mem_cons_of_mem _ hq))

theorem TOk_node {S : List Nat} {b : Nat} {is : List Instr} {kids sibs : DomT}
    (h : TOk S (.node b is kids sibs)) :
    BOk S is ∧ TOk S kids ∧ TOk S sibs := by
  refine ⟨?_, ?_, ?_⟩
  · intro i hi
    exact h i (by unfold instrsOfT; exact List.mem_append_left _ hi)
  · intro i hi
    exact h i (by unfold instrsOfT; exact List.mem_append_right _ (List.mem_append_left _ hi))
  · intro i hi
    exact h i (by unfold instrsOfT; exact List.mem_append_right _ (List.mem_append_right _ hi))

theorem lookupKey_cons_ne (en : Entry) (tbl : List Entry) (k : CKey) (h : en.key ≠ k) :
    lookupKey (en :: tbl) k = lookupKey tbl k := by
  unfold lookupKey
  rw [List.find?_cons]
  simp [h]

theorem lookupKey_cons_self (en : Entry) (tbl : List Entry) (h : en.key = k) :
    lookupKey (en :: tbl) k = some en := by
  unfold lookupKey
  rw [List.find?_cons]
  simp [h]

/-- A table entry visible to a lookup stays visible, unchanged, through any
block walk: a hit inserts nothing, and a miss inserts a key that the lookup
did not find. -/
theorem cseBlockGo_pres (bid : Nat) (k : CKey) (en : Entry) :
    ∀ (l : List Instr) (tbl : List Entry) (pos : Nat) (pend : List Subst) (er : List Nat),
      lookupKey tbl k = some en →
      lookupKey (cseBlockGo bid tbl pos pend er l).1 k = some en := by
  intro l
  induction l with
  | nil => intro tbl pos pend er h; exact h
  | cons i rest ih =>
    intro tbl pos pend er h
    rw [cseBlockGo]
    by_cases hig : ignoreForCSE (applySubs pend i) = true
    · rw [if_pos hig]
      exact ih tbl (pos + 1) pend er h
    · rw [if_neg hig]
      cases hlk : lookupKey tbl (instrKey (applySubs pend i)) with
      | some en2 =>
        exact ih tbl (pos + 1) _ _ h
      | none =>
        refine ih _ (pos + 1) pend er ?_
        rw [lookupKey_cons_ne _ _ _ ?_]
        · exact h
        · show instrKey (applySubs pend i) ≠ k
          intro he
          rw [he, h] at hlk
          exact absurd hlk (by simp)

/-- A block walk leaves the substitution discipline intact. -/
theorem cseBlockGo_pendOk (bid : Nat) (S : List Nat) :
    ∀ (l : List Instr) (tbl : List Entry) (pos : Nat) (pend : List Subst) (er : List Nat),
      BOk S l → PendOk S pend →
      PendOk S (cseBlockGo bid tbl pos pend er l).2.1 := by
  intro l
  induction l with
  | nil => intro tbl pos pend er _ hp; exact hp
  | cons i rest ih =>
    intro tbl pos pend er hb hp
    have hbr : BOk S rest := fun q hq => hb q (List.mem_cons_of_mem _ hq)
    rw [cseBlockGo]
    by_cases hig : ignoreForCSE (applySubs pend i) = true
    · rw [if_pos hig]
      exact ih tbl (pos + 1) pend er hbr hp
    · rw [if_neg hig]
      cases hlk : lookupKey tbl (instrKey (applySubs pend i)) with
      | some en2 =>
        refine ih tbl (pos + 1) _ _ hbr ?_
        intro s hs
        rcases List.mem_append.mp hs with h | h
        · exact hp s h
        · rcases List.mem_cons.mp h with h | h
          · rw [h]
            exact (hb i (List.mem_cons_self i rest)).2
          · exact absurd h (List.not_mem_nil s)
      | none =>
        exact ih _ (pos + 1) pend er hbr hp

/-- The preorder walk leaves the substitution discipline intact. -/
theorem cseGo_pendOk (S : List Nat) :
    ∀ (t : DomT) (tbl : List Entry) (pend : List Subst) (er : List Nat),
      TOk S t → PendOk S pend →
      PendOk S (cseGo tbl pend er t).1 := by
  intro t
  induction t with
  | nil => intro tbl pend er _ hp; exact hp
  | node b is kids sibs ihk ihs =>
    intro tbl pend er ht hp
    obtain ⟨hb, hk, hs⟩ := TOk_node ht
    rw [cseGo]
    exact ihs tbl _ _ hs (ihk _ _ _ hk (cseBlockGo_pendOk b S is tbl 0 pend er hb hp))

/-- A key-free block segment preserves an empty lookup. -/
theorem cseBlockGo_none (bid : Nat) (S : List Nat) (k : CKey) :
    ∀ (l : List Instr) (tbl : List Entry) (pos : Nat) (pend : List Subst) (er : List Nat),
      BOk S l → PendOk S pend → (∀ i ∈ l, instrKey i ≠ k) →
      lookupKey tbl k = none →
      lookupKey (cseBlockGo bid tbl pos pend er l).1 k = none := by
  intro l
  induction l with
  | nil => intro tbl pos pend er _ _ _ h; exact h
  | cons i rest ih =>
    intro tbl pos pend er hb hp hfree h
    have hbr : BOk S rest := fun q hq => hb q (List.mem_cons_of_mem _ hq)
    have hfr : ∀ q ∈ rest, instrKey q ≠ k := fun q hq => hfree q (List.mem_cons_of_mem _ hq)
    have hi2 : applySubs pend i = i :=
      applySubs_no_hit S i (hb i (List.mem_cons_self i rest)) pend hp
    rw [cseBlockGo]
    by_cases hig : ignoreForCSE (applySubs pend i) = true
    · rw [if_pos hig]
      exact ih tbl (pos + 1) pend er hbr hp hfr h
    · rw [if_neg hig]
      cases hlk : lookupKey tbl (instrKey (applySubs pend i)) with
      | some en2 =>
        refine ih tbl (pos + 1) _ _ hbr ?_ hfr h
        intro s hs
        rcases List.mem_append.mp hs with hq | hq
        · exact hp s hq
        · rcases List.mem_cons.mp hq with hq | hq
          · rw [hq]
            exact (hb i (List.mem_cons_self i rest)).2
          · exact absurd hq (List.not_mem_nil s)
      | none =>
        refine ih _ (pos + 1) pend er hbr hp hfr ?_
        rw [lookupKey_cons_ne]
        · exact h
        · show instrKey (applySubs pend i) ≠ k
          rw [hi2]
          exact hfree i (List.mem_cons_self i rest)

/-- Walking a block that holds x after some prefix, with an entry for the
key of x already visible, records the elimination of x in favor of that
entry. No condition on the surrounding instructions is needed: once an
entry for the key is visible it can neither be removed nor shadowed. -/
theorem cseBlockGo_hit_x (bid : Nat) (S : List Nat) (k : CKey) (en : Entry) (x : Instr)
    (hkx : instrKey x = k) (hex : ignoreForCSE x = false) :
    ∀ (l₁ l₂ : List Instr) (tbl : List Entry) (pos : Nat) (pend : List Subst) (er : List Nat),
      BOk S (l₁ ++ x :: l₂) → PendOk S pend →
      lookupKey tbl k = some en →
      ∀ n, n = pos + l₁.length →
        (⟨x.id, bid, n, en.iid, en.bid, en.idx⟩ : Elim) ∈
          (cseBlockGo bid tbl pos pend er (l₁ ++ x :: l₂)).2.2.2 := by
  intro l₁
  induction l₁ with
  | nil =>
    intro l₂ tbl pos pend er hb hp h n hn
    simp only [List.length_nil, Nat.add_zero] at hn
    rw [hn]
    have hx2 : applySubs pend x = x :=
      applySubs_no_hit S x (hb x (List.mem_cons_self x l₂)) pend hp
    show _ ∈ (cseBlockGo bid tbl pos pend er (x :: l₂)).2.2.2
    rw [cseBlockGo]
    rw [hx2, hkx]
    rw [if_neg (by rw [hex]; simp)]
    rw [h]
    exact List.mem_cons_self _ _
  | cons i l₁ ih =>
    intro l₂ tbl pos pend er hb hp h n hn
    have hbr : BOk S (l₁ ++ x :: l₂) := fun q hq => hb q (List.mem_cons_of_mem _ hq)
    have hn2 : n = (pos + 1) + l₁.length := by
      simp only [List.length_cons] at hn
      omega
    show _ ∈ (cseBlockGo bid tbl pos pend er (i :: (l₁ ++ x :: l₂))).2.2.2
    rw [cseBlockGo]
    by_cases hig : ignoreForCSE (applySubs pend i) = true
    · rw [if_pos hig]
      exact ih l₂ tbl (pos + 1) pend er hbr hp h n hn2
    · rw [if_neg hig]
      cases hlk : lookupKey tbl (instrKey (applySubs pend i)) with
      | some en2 =>
        refine List.mem_cons_of_mem _ ?_
        refine ih l₂ tbl (pos + 1) _ _ hbr ?_ h n hn2
        intro s hs
        rcases List.mem_append.mp hs with hq | hq
        · exact hp s hq
        · rcases List.mem_cons.mp hq with hq | hq
          · rw [hq]
            exact (hb i (List.mem_cons_self i _)).2
          · exact absurd hq (List.not_mem_nil s)
      | none =>
        refine ih l₂ _ (pos + 1) pend er hbr hp ?_ n hn2
        rw [lookupKey_cons_ne _ _ _ ?_]
        · exact h
        · show instrKey (applySubs pend i) ≠ k
          intro he
          rw [he, h] at hlk
          exact absurd hlk (by simp)

/-- Walking a block that holds the eligible instruction y after a key-free
prefix, with no entry for the key of y visible, installs y as the canonical
representative, recorded at its position. -/
theorem cseBlockGo_insert_y (bid : Nat) (S : List Nat) (k : CKey) (y : Instr)
    (hky : instrKey y = k) (hey : ignoreForCSE y = false) :
    ∀ (l₁ l₂ : List Instr) (tbl : List Entry) (pos : Nat) (pend : List Subst) (er : List Nat),
      BOk S (l₁ ++ y :: l₂) → PendOk S pend →
      (∀ i ∈ l₁, instrKey i ≠ k) →
      lookupKey tbl k = none →
      ∀ n, n = pos + l₁.length →
        lookupKey (cseBlockGo bid tbl pos pend er (l₁ ++ y :: l₂)).1 k =
          some ⟨k, y.id, bid, n⟩ := by
  intro l₁
  induction l₁ with
  | nil =>
    intro l₂ tbl pos pend er hb hp _ h n hn
    simp only [List.length_nil, Nat.add_zero] at hn
    rw [hn]
    have hy2 : applySubs pend y = y :=
      applySubs_no_hit S y (hb y (List.mem_cons_self y l₂)) pend hp
    show lookupKey (cseBlockGo bid tbl pos pend er (y :: l₂)).1 k = _
    rw [cseBlockGo]
    rw [hy2, hky]
    rw [if_neg (by rw [hey]; simp)]
    rw [h]
    refine cseBlockGo_pres bid k _ l₂ _ (pos + 1) pend er ?_
    exact lookupKey_cons_self _ tbl rfl
  | cons i l₁ ih =>
    intro l₂ tbl pos pend er hb hp hfree h n hn
    have hbr : BOk S (l₁ ++ y :: l₂) := fun q hq => hb q (List.mem_cons_of_mem _ hq)
    have hfr : ∀ q ∈ l₁, instrKey q ≠ k := fun q hq => hfree q (List.mem_cons_of_mem _ hq)
    have hi2 : applySubs pend i = i :=
      applySubs_no_hit S i (hb i (List.mem_cons_self i _)) pend hp
    have hn2 : n = (pos + 1) + l₁.length := by
      simp only [List.length_cons] at hn
      omega
    show lookupKey (cseBlockGo bid tbl pos pend er (i :: (l₁ ++ y :: l₂))).1 k = _
    rw [cseBlockGo]
    by_cases hig : ignoreForCSE (applySubs pend i) = true
    · rw [if_pos hig]
      exact ih l₂ tbl (pos + 1) pend er hbr hp hfr h n hn2
    · rw [if_neg hig]
      cases hlk : lookupKey tbl (instrKey (applySubs pend i)) with
      | some en2 =>
        refine ih l₂ tbl (pos + 1) _ _ hbr ?_ hfr h n hn2
        intro s hs
        rcases List.mem_append.mp hs with hq | hq
        · exact hp s hq
        · rcases List.mem_cons.mp hq with hq | hq
          · rw [hq]
            exact (hb i (List.mem_cons_self i _)).2
          · exact absurd hq (List.not_mem_nil s)
      | none =>
        refine ih l₂ _ (pos + 1) pend er hbr hp hfr ?_ n hn2
        rw [lookupKey_cons_ne]
        · exact h
        · show instrKey (applySubs pend i) ≠ k
          rw [hi2]
          exact hfree i (List.mem_cons_self i _)

/-- Descending to the block of x with an entry for its key visible records
the elimination of x in favor of that entry: the entry survives every block
processed on the way down. -/
theorem cseGo_hit_x (S : List Nat) (k : CKey) (en : Entry) (x : Instr)
    (hkx : instrKey x = k) (hex : ignoreForCSE x = false)
    (bx : Nat) (xs₁ xs₂ : List Instr) :
    ∀ (t : DomT) (tbl : List Entry) (pend : List Subst) (er : List Nat),
      TOk S t → PendOk S pend →
      lookupKey tbl k = some en →
      blockOfT t bx = some (xs₁ ++ x :: xs₂) →
      (⟨x.id, bx, xs₁.length, en.iid, en.bid, en.idx⟩ : Elim) ∈ (cseGo tbl pend er t).2.2 := by
  intro t
  induction t with
  | nil =>
    intro tbl pend er _ _ _ hB
    exact absurd hB (by rw [blockOfT]; simp)
  | node b is kids sibs ihk ihs =>
    intro tbl pend er ht hp h hB
    obtain ⟨hbis, hbk, hbs⟩ := TOk_node ht
    rw [cseGo]
    by_cases hb : b = bx
    · rw [blockOfT, if_pos hb] at hB
      have his : is = xs₁ ++ x :: xs₂ := Option.some.inj hB
      refine List.mem_append.mpr (Or.inl (List.mem_append.mpr (Or.inl ?_)))
      subst hb
      rw [his]
      have := cseBlockGo_hit_x b S k en x hkx hex xs₁ xs₂ tbl 0 pend er
        (by rw [← his]; exact hbis) hp h xs₁.length (by omega)
      exact this
    · rw [blockOfT, if_neg hb] at hB
      cases hk : blockOfT kids bx with
      | some r =>
        rw [hk] at hB
        have hr : r = xs₁ ++ x :: xs₂ := Option.some.inj hB
        refine List.mem_append.mpr (Or.inl (List.mem_append.mpr (Or.inr ?_)))
        refine ihk _ _ _ hbk ?_ ?_ (by rw [hk, hr])
        · exact cseBlockGo_pendOk b S is tbl 0 pend er hbis hp
        · exact cseBlockGo_pres b k en is tbl 0 pend er h
      | none =>
        rw [hk] at hB
        refine List.mem_append.mpr (Or.inr ?_)
        refine ihs tbl _ _ hbs ?_ h hB
        exact cseGo_pendOk S kids _ _ _ hbk (cseBlockGo_pendOk b S is tbl 0 pend er hbis hp)

theorem hasBid_isSome : ∀ (t : DomT) (a : Nat),
    hasBid t a = true ↔ (blockOfT t a).isSome = true := by
  intro t
  induction t with
  | nil => intro a; simp [hasBid, blockOfT]
  | node b is kids sibs ihk ihs =>
    intro a
    rw [hasBid, blockOfT]
    by_cases hb : b = a
    · simp [hb]
    · rw [if_neg hb]
      cases hk : blockOfT kids a with
      | some r =>
        have : hasBid kids a = true := (ihk a).mpr (by rw [hk]; rfl)
        simp [hb, this]
      | none =>
        have hknot : hasBid kids a = false := by
          cases hh : hasBid kids a
          · rfl
          · have := (ihk a).mp hh
            rw [hk] at this
            exact absurd this (by simp)
        simp [hb, hknot, ihs a]

theorem blockOfT_none_of_hasBid_false (t : DomT) (a : Nat) (h : hasBid t a = false) :
    blockOfT t a = none := by
  cases hO : blockOfT t a with
  | none => rfl
  | some r =>
    have : hasBid t a = true := (hasBid_isSome t a).mpr (by rw [hO]; rfl)
    rw [h] at this
    exact absurd this (by simp)

theorem strictAnc_hasBid : ∀ (t : DomT) (a c : Nat), strictAnc t a c = true →
    hasBid t a = true ∧ hasBid t c = true := by
  intro t
  induction t with
  | nil => intro a c h; exact absurd h (by simp [strictAnc])
  | node b is kids sibs ihk ihs =>
    intro a c h
    rw [strictAnc] at h
    rw [Bool.or_eq_true, Bool.or_eq_true] at h
    rcases h with (h | h) | h
    · rw [Bool.and_eq_true] at h
      constructor
      · rw [hasBid, h.1]; simp
      · rw [hasBid, h.2]; simp
    · obtain ⟨h1, h2⟩ := ihk a c h
      constructor
      · rw [hasBid, h1]; simp
      · rw [hasBid, h2]; simp
    · obtain ⟨h1, h2⟩ := ihs a c h
      constructor
      · rw [hasBid, h1]; simp
      · rw [hasBid, h2]; simp

theorem blockOfT_mem : ∀ (t : DomT) (a : Nat) (B : List Instr), blockOfT t a = some B →
    ∀ z ∈ B, z ∈ instrsOfT t := by
  intro t
  induction t with
  | nil => intro a B h; exact absurd h (by rw [blockOfT]; simp)
  | node b is kids sibs ihk ihs =>
    intro a B h z hz
    rw [blockOfT] at h
    by_cases hb : b = a
    · rw [if_pos hb] at h
      rw [instrsOfT]
      exact List.mem_append_left _ (Option.some.inj h ▸ hz)
    · rw [if_neg hb] at h
      cases hk : blockOfT kids a with
      | some r =>
        rw [hk] at h
        rw [instrsOfT]
        refine List.mem_append_right _ (List.mem_append_left _ ?_)
        exact ihk a r hk z (Option.some.inj h ▸ hz)
      | none =>
        rw [hk] at h
        rw [instrsOfT]
        exact List.mem_append_right _ (List.mem_append_right _ (ihs a B h z hz))

theorem blockOfT_resolve (b : Nat) (is : List Instr) (kids sibs : DomT) (a : Nat)
    (B : List Instr) (h : blockOfT (.node b is kids sibs) a = some B) (hb : b ≠ a) :
    blockOfT kids a = some B ∨ (blockOfT kids a = none ∧ blockOfT sibs a = some B) := by
  rw [blockOfT, if_neg hb] at h
  cases hk : blockOfT kids a with
  | some r =>
    rw [hk] at h
    exact Or.inl h
  | none =>
    rw [hk] at h
    exact Or.inr ⟨rfl, h⟩

theorem hasBid_mem_bids : ∀ (t : DomT) (a : Nat), hasBid t a = true → a ∈ bidsOfT t := by
  intro t
  induction t with
  | nil => intro a h; exact absurd h (by simp [hasBid])
  | node b is kids sibs ihk ihs =>
    intro a h
    rw [hasBid] at h
    rw [Bool.or_eq_true, Bool.or_eq_true] at h
    rw [bidsOfT]
    rcases h with (h | h) | h
    · have : b = a := of_decide_eq_true h
      rw [this]
      exact List.mem_cons_self _ _
    · exact List.mem_cons_of_mem _ (List.mem_append_left _ (ihk a h))
    · exact List.mem_cons_of_mem _ (List.mem_append_right _ (ihs a h))

theorem idsOfT_node (b : Nat) (is : List Instr) (kids sibs : DomT) :
    idsOfT (.node b is kids sibs) =
      is.map (fun i => i.id) ++ (idsOfT kids ++ idsOfT sibs) := by
  show (is ++ (instrsOfT kids ++ instrsOfT sibs)).map (fun i => i.id) = _
  rw [List.map_append, List.map_append]
  rfl

theorem idsOfT_parts {b : Nat} {is : List Instr} {kids sibs : DomT}
    (h : (idsOfT (.node b is kids sibs)).Nodup) :
    (is.map (fun i => i.id)).Nodup ∧ (idsOfT kids).Nodup ∧ (idsOfT sibs).Nodup ∧
    (is.map (fun i => i.id)).Disjoint (idsOfT kids ++ idsOfT sibs) ∧
    (idsOfT kids).Disjoint (idsOfT sibs) := by
  rw [idsOfT_node, List.nodup_append] at h
  obtain ⟨h1, h2, h3⟩ := h
  rw [List.nodup_append] at h2
  exact ⟨h1, h2.1, h2.2.1, h3, h2.2.2⟩

theorem bidsOfT_parts {b : Nat} {is : List Instr} {kids sibs : DomT}
    (h : (bidsOfT (.node b is kids sibs)).Nodup) :
    b ∉ bidsOfT kids ∧ b ∉ bidsOfT sibs ∧ (bidsOfT kids).Nodup ∧ (bidsOfT sibs).Nodup ∧
    (bidsOfT kids).Disjoint (bidsOfT sibs) := by
  have h' : (b :: (bidsOfT kids ++ bidsOfT sibs)).Nodup := by rw [bidsOfT] at h; exact h
  rw [List.nodup_cons] at h'
  obtain ⟨hb, hrest⟩ := h'
  rw [List.nodup_append] at hrest
  exact ⟨fun hc => hb (List.mem_append_left _ hc), fun hc => hb (List.mem_append_right _ hc),
    hrest.1, hrest.2.1, hrest.2.2⟩

theorem mem_instrs_is {b : Nat} {is : List Instr} {kids sibs : DomT} {z : Instr}
    (h : z ∈ is) : z ∈ instrsOfT (.node b is kids sibs) := by
  rw [instrsOfT]
  exact List.mem_append_left _ h

theorem mem_instrs_kids {b : Nat} {is : List Instr} {kids sibs : DomT} {z : Instr}
    (h : z ∈ instrsOfT kids) : z ∈ instrsOfT (.node b is kids sibs) := by
  rw [instrsOfT]
  exact List.mem_append_right _ (List.mem_append_left _ h)

theorem mem_instrs_sibs {b : Nat} {is : List Instr} {kids sibs : DomT} {z : Instr}
    (h : z ∈ instrsOfT sibs) : z ∈ instrsOfT (.node b is kids sibs) := by
  rw [instrsOfT]
  exact List.mem_append_right _ (List.mem_append_right _ h)

theorem blockOfT_hasInstrAt : ∀ (t : DomT) (a : Nat) (B : List Instr),
    blockOfT t a = some B → ∀ z ∈ B, hasInstrAt t a z.id = true := by
  intro t
  induction t with
  | nil => intro a B h; exact absurd h (by rw [blockOfT]; simp)
  | node b is kids sibs ihk ihs =>
    intro a B h z hz
    rw [blockOfT] at h
    rw [hasInstrAt]
    by_cases hb : b = a
    · rw [if_pos hb] at h
      have : z ∈ is := Option.some.inj h ▸ hz
      have hany : is.any (fun i => decide (i.id = z.id)) = true :=
        List.any_eq_true.mpr ⟨z, this, by simp⟩
      rw [hany]
      simp [hb]
    · rw [if_neg hb] at h
      cases hk : blockOfT kids a with
      | some r =>
        rw [hk] at h
        have := ihk a r hk z (Option.some.inj h ▸ hz)
        rw [this]
        simp
      | none =>
        rw [hk] at h
        have := ihs a B h z hz
        rw [this]
        simp

theorem hasInstrAt_mem_ids : ∀ (t : DomT) (a z : Nat), hasInstrAt t a z = true →
    z ∈ idsOfT t := by
  intro t
  induction t with
  | nil => intro a z h; exact absurd h (by simp [hasInstrAt])
  | node b is kids sibs ihk ihs =>
    intro a z h
    rw [hasInstrAt] at h
    rw [Bool.or_eq_true, Bool.or_eq_true] at h
    rw [idsOfT_node]
    rcases h with (h | h) | h
    · rw [Bool.and_eq_true] at h
      obtain ⟨i, hi, hid⟩ := List.any_eq_true.mp h.2
      refine List.mem_append_left _ ?_
      exact List.mem_map.mpr ⟨i, hi, of_decide_eq_true hid⟩
    · exact List.mem_append_right _ (List.mem_append_left _ (ihk a z h))
    · exact List.mem_append_right _ (List.mem_append_right _ (ihs a z h))

/-- In a forest without duplicate instruction identities an identity pins
down its block. -/
theorem hasInstrAt_unique : ∀ (t : DomT), (idsOfT t).Nodup →
    ∀ (b1 b2 z : Nat), hasInstrAt t b1 z = true → hasInstrAt t b2 z = true → b1 = b2 := by
  intro t
  induction t with
  | nil => intro _ b1 b2 z h; exact absurd h (by simp [hasInstrAt])
  | node b is kids sibs ihk ihs =>
    intro hnd b1 b2 z h1 h2
    obtain ⟨_, hndk, hnds, hdisj1, hdisj2⟩ := idsOfT_parts hnd
    have hmem : ∀ bb, hasInstrAt (.node b is kids sibs) bb z = true →
        (bb = b ∧ z ∈ is.map (fun i => i.id)) ∨ z ∈ idsOfT kids ∨ z ∈ idsOfT sibs := by
      intro bb hh
      rw [hasInstrAt] at hh
      rw [Bool.or_eq_true, Bool.or_eq_true] at hh
      rcases hh with (hh | hh) | hh
      · rw [Bool.and_eq_true] at hh
        obtain ⟨i, hi, hid⟩ := List.any_eq_true.mp hh.2
        exact Or.inl ⟨(of_decide_eq_true hh.1).symm,
          List.mem_map.mpr ⟨i, hi, of_decide_eq_true hid⟩⟩
      · exact Or.inr (Or.inl (hasInstrAt_mem_ids kids bb z hh))
      · exact Or.inr (Or.inr (hasInstrAt_mem_ids sibs bb z hh))
    have hsplit : ∀ bb, hasInstrAt (.node b is kids sibs) bb z = true →
        ((decide (b = bb) && is.any (fun i => decide (i.id = z))) = true ∨
         hasInstrAt kids bb z = true ∨ hasInstrAt sibs bb z = true) := by
      intro bb hh
      rw [hasInstrAt] at hh
      rw [Bool.or_eq_true, Bool.or_eq_true] at hh
      tauto
    rcases hsplit b1 h1 with ha1 | ha1 | ha1 <;> rcases hsplit b2 h2 with ha2 | ha2 | ha2
    · rw [Bool.and_eq_true] at ha1 ha2
      rw [← of_decide_eq_true ha1.1, ← of_decide_eq_true ha2.1]
    · rw [Bool.and_eq_true] at ha1
      obtain ⟨i, hi, hid⟩ := List.any_eq_true.mp ha1.2
      have hz1 : z ∈ is.map (fun i => i.id) :=
        List.mem_map.mpr ⟨i, hi, of_decide_eq_true hid⟩
      have hz2 : z ∈ idsOfT kids := hasInstrAt_mem_ids kids b2 z ha2
      exact absurd (List.mem_append_left _ hz2) (hdisj1 hz1)
    · rw [Bool.and_eq_true] at ha1
      obtain ⟨i, hi, hid⟩ := List.any_eq_true.mp ha1.2
      have hz1 : z ∈ is.map (fun i => i.id) :=
        List.mem_map.mpr ⟨i, hi, of_decide_eq_true hid⟩
      have hz2 : z ∈ idsOfT sibs := hasInstrAt_mem_ids sibs b2 z ha2
      exact absurd (List.mem_append_right _ hz2) (hdisj1 hz1)
    · rw [Bool.and_eq_true] at ha2
      obtain ⟨i, hi, hid⟩ := List.any_eq_true.mp ha2.2
      have hz2 : z ∈ is.map (fun i => i.id) :=
        List.mem_map.mpr ⟨i, hi, of_decide_eq_true hid⟩
      have hz1 : z ∈ idsOfT kids := hasInstrAt_mem_ids kids b1 z ha1
      exact absurd (List.mem_append_left _ hz1) (hdisj1 hz2)
    · exact ihk hndk b1 b2 z ha1 ha2
    · have hz1 : z ∈ idsOfT kids := hasInstrAt_mem_ids kids b1 z ha1
      have hz2 : z ∈ idsOfT sibs := hasInstrAt_mem_ids sibs b2 z ha2
      exact absurd hz2 (hdisj2 hz1)
    · rw [Bool.and_eq_true] at ha2
      obtain ⟨i, hi, hid⟩ := List.any_eq_true.mp ha2.2
      have hz2 : z ∈ is.map (fun i => i.id) :=
        List.mem_map.mpr ⟨i, hi, of_decide_eq_true hid⟩
      have hz1 : z ∈ idsOfT sibs := hasInstrAt_mem_ids sibs b1 z ha1
      exact absurd (List.mem_append_right _ hz1) (hdisj1 hz2)
    · have hz1 : z ∈ idsOfT sibs := hasInstrAt_mem_ids sibs b1 z ha1
      have hz2 : z ∈ idsOfT kids := hasInstrAt_mem_ids kids b2 z ha2
      exact absurd hz1 (hdisj2 hz2)
    · exact ihs hnds b1 b2 z ha1 ha2

theorem hasInstrAt_lift_is {b : Nat} {is : List Instr} {kids sibs : DomT} (i : Instr)
    (hi : i ∈ is) : hasInstrAt (.node b is kids sibs) b i.id = true := by
  rw [hasInstrAt]
  have hany : is.any (fun q => decide (q.id = i.id)) = true :=
    List.any_eq_true.mpr ⟨i, hi, by simp⟩
  simp [hany]

theorem hasInstrAt_lift_kids {b : Nat} {is : List Instr} {kids sibs : DomT} {a z : Nat}
    (h : hasInstrAt kids a z = true) : hasInstrAt (.node b is kids sibs) a z = true := by
  rw [hasInstrAt]
  simp [h]

theorem hasInstrAt_lift_sibs {b : Nat} {is : List Instr} {kids sibs : DomT} {a z : Nat}
    (h : hasInstrAt sibs a z = true) : hasInstrAt (.node b is kids sibs) a z = true := by
  rw [hasInstrAt]
  simp [h]

/-- Walking a block that holds the eligible y and, later, the eligible x
with the same key, with a key-free prefix before y and no entry for the key
visible, records the elimination of x in favor of y at their positions. -/
theorem cseBlockGo_same (bid : Nat) (S : List Nat) (k : CKey) (x y : Instr)
    (hkx : instrKey x = k) (hky : instrKey y = k)
    (hex : ignoreForCSE x = false) (hey : ignoreForCSE y = false) :
    ∀ (l₁ l₂ l₃ : List Instr) (tbl : List Entry) (pos : Nat) (pend : List Subst)
      (er : List Nat),
      BOk S (l₁ ++ y :: (l₂ ++ x :: l₃)) → PendOk S pend →
      (∀ i ∈ l₁, instrKey i ≠ k) →
      lookupKey tbl k = none →
      ∀ n m, n = pos + l₁.length → m = n + 1 + l₂.length →
        (⟨x.id, bid, m, y.id, bid, n⟩ : Elim) ∈
          (cseBlockGo bid tbl pos pend er (l₁ ++ y :: (l₂ ++ x :: l₃))).2.2.2 := by
  intro l₁
  induction l₁ with
  | nil =>
    intro l₂ l₃ tbl pos pend er hb hp _ h n m hn hm
    simp only [List.length_nil, Nat.add_zero] at hn
    rw [hn] at hm ⊢
    have hy2 : applySubs pend y = y :=
      applySubs_no_hit S y (hb y (List.mem_cons_self y _)) pend hp
    show _ ∈ (cseBlockGo bid tbl pos pend er (y :: (l₂ ++ x :: l₃))).2.2.2
    rw [cseBlockGo, hy2, hky, if_neg (by rw [hey]; simp), h]
    have hl : lookupKey ((⟨k, y.id, bid, pos⟩ : Entry) :: tbl) k =
        some ⟨k, y.id, bid, pos⟩ := lookupKey_cons_self _ tbl rfl
    exact cseBlockGo_hit_x bid S k ⟨k, y.id, bid, pos⟩ x hkx hex l₂ l₃
      ((⟨k, y.id, bid, pos⟩ : Entry) :: tbl) (pos + 1) pend er
      (fun q hq => hb q (List.mem_cons_of_mem _ hq)) hp hl m (by omega)
  | cons i l₁ ih =>
    intro l₂ l₃ tbl pos pend er hb hp hfree h n m hn hm
    have hbr : BOk S (l₁ ++ y :: (l₂ ++ x :: l₃)) :=
      fun q hq => hb q (List.mem_cons_of_mem _ hq)
    have hfr : ∀ q ∈ l₁, instrKey q ≠ k := fun q hq => hfree q (List.mem_cons_of_mem _ hq)
    have hi2 : applySubs pend i = i :=
      applySubs_no_hit S i (hb i (List.mem_cons_self i _)) pend hp
    have hn2 : n = (pos + 1) + l₁.length := by
      simp only [List.length_cons] at hn
      omega
    show _ ∈ (cseBlockGo bid tbl pos pend er (i :: (l₁ ++ y :: (l₂ ++ x :: l₃)))).2.2.2
    rw [cseBlockGo]
    by_cases hig : ignoreForCSE (applySubs pend i) = true
    · rw [if_pos hig]
      exact ih l₂ l₃ tbl (pos + 1) pend er hbr hp hfr h n m hn2 hm
    · rw [if_neg hig]
      cases hlk : lookupKey tbl (instrKey (applySubs pend i)) with
      | some en2 =>
        refine List.mem_cons_of_mem _ ?_
        refine ih l₂ l₃ tbl (pos + 1) _ _ hbr ?_ hfr h n m hn2 hm
        intro s hs
        rcases List.mem_append.mp hs with hq | hq
        · exact hp s hq
        · rcases List.mem_cons.mp hq with hq | hq
          · rw [hq]
            exact (hb i (List.mem_cons_self i _)).2
          · exact absurd hq (List.not_mem_nil s)
      | none =>
        refine ih l₂ l₃ _ (pos + 1) pend er hbr hp hfr ?_ n m hn2 hm
        rw [lookupKey_cons_ne]
        · exact h
        · show instrKey (applySubs pend i) ≠ k
          rw [hi2]
          exact hfree i (List.mem_cons_self i _)

/-- Same-block completeness through the preorder walk: when x and y sit in
one block, y first, with the same key, and no other instruction of the
forest carries that key, descending to their block records the elimination
of x in favor of y. -/
theorem cseGo_same (S : List Nat) (k : CKey) (x y : Instr)
    (hkx : instrKey x = k) (hky : instrKey y = k)
    (hex : ignoreForCSE x = false) (hey : ignoreForCSE y = false)
    (bb : Nat) (l₁ l₂ l₃ : List Instr) :
    ∀ (t : DomT) (tbl : List Entry) (pend : List Subst) (er : List Nat),
      TOk S t → PendOk S pend → (idsOfT t).Nodup →
      (∀ i ∈ instrsOfT t, instrKey i = k → i.id = x.id ∨ i.id = y.id) →
      lookupKey tbl k = none →
      blockOfT t bb = some (l₁ ++ y :: (l₂ ++ x :: l₃)) →
      (⟨x.id, bb, l₁.length + 1 + l₂.length, y.id, bb, l₁.length⟩ : Elim) ∈
        (cseGo tbl pend er t).2.2 := by
  intro t
  induction t with
  | nil =>
    intro tbl pend er _ _ _ _ _ hB
    exact absurd hB (by rw [blockOfT]; simp)
  | node b is kids sibs ihk ihs =>
    intro tbl pend er ht hp hnd huniq h hB
    obtain ⟨hbis, hbk, hbs⟩ := TOk_node ht
    have hxB : x ∈ l₁ ++ y :: (l₂ ++ x :: l₃) :=
      List.mem_append_right _ (List.mem_cons_of_mem _
        (List.mem_append_right _ (List.mem_cons_self x _)))
    have hyB : y ∈ l₁ ++ y :: (l₂ ++ x :: l₃) :=
      List.mem_append_right _ (List.mem_cons_self y _)
    rw [cseGo]
    by_cases hb : b = bb
    · rw [blockOfT, if_pos hb] at hB
      have his : is = l₁ ++ y :: (l₂ ++ x :: l₃) := Option.some.inj hB
      have hnd_is : (is.map (fun i => i.id)).Nodup := (idsOfT_parts hnd).1
      rw [his, List.map_append] at hnd_is
      rw [List.nodup_append] at hnd_is
      have hdisj := hnd_is.2.2
      have hfree : ∀ i ∈ l₁, instrKey i ≠ k := by
        intro i hi hik
        have hiis : i ∈ instrsOfT (.node b is kids sibs) :=
          mem_instrs_is (by rw [his]; exact List.mem_append_left _ hi)
        have hid1 : i.id ∈ l₁.map (fun q => q.id) := List.mem_map.mpr ⟨i, hi, rfl⟩
        rcases huniq i hiis hik with hxid | hyid
        · have : x.id ∈ (y :: (l₂ ++ x :: l₃)).map (fun q => q.id) :=
            List.mem_map.mpr ⟨x, List.mem_cons_of_mem _
              (List.mem_append_right _ (List.mem_cons_self x _)), rfl⟩
          rw [← hxid] at this
          exact hdisj hid1 this
        · have : y.id ∈ (y :: (l₂ ++ x :: l₃)).map (fun q => q.id) :=
            List.mem_map.mpr ⟨y, List.mem_cons_self y _, rfl⟩
          rw [← hyid] at this
          exact hdisj hid1 this
      refine List.mem_append.mpr (Or.inl (List.mem_append.mpr (Or.inl ?_)))
      rw [← hb, his]
      exact cseBlockGo_same b S k x y hkx hky hex hey l₁ l₂ l₃ tbl 0 pend er
        (by rw [← his]; exact hbis) hp hfree h l₁.length (l₁.length + 1 + l₂.length)
        (by omega) (by omega)
    · rcases blockOfT_resolve b is kids sibs bb _ hB hb with hk | ⟨hkn, hs⟩
      · have hfree_is : ∀ i ∈ is, instrKey i ≠ k := by
          intro i hi hik
          have hiis : i ∈ instrsOfT (.node b is kids sibs) := mem_instrs_is hi
          have hib : hasInstrAt (.node b is kids sibs) b i.id = true :=
            hasInstrAt_lift_is i hi
          rcases huniq i hiis hik with hxid | hyid
          · have hxk : hasInstrAt (.node b is kids sibs) bb x.id = true :=
              hasInstrAt_lift_kids (blockOfT_hasInstrAt kids bb _ hk x hxB)
            rw [hxid] at hib
            exact hb (hasInstrAt_unique _ hnd b bb x.id hib hxk)
          · have hyk : hasInstrAt (.node b is kids sibs) bb y.id = true :=
              hasInstrAt_lift_kids (blockOfT_hasInstrAt kids bb _ hk y hyB)
            rw [hyid] at hib
            exact hb (hasInstrAt_unique _ hnd b bb y.id hib hyk)
        refine List.mem_append.mpr (Or.inl (List.mem_append.mpr (Or.inr ?_)))
        refine ihk _ _ _ hbk ?_ (idsOfT_parts hnd).2.1
          (fun q hq hkq => huniq q (mem_instrs_kids hq) hkq) ?_ hk
        · exact cseBlockGo_pendOk b S is tbl 0 pend er hbis hp
        · exact cseBlockGo_none b S k is tbl 0 pend er hbis hp hfree_is h
      · refine List.mem_append.mpr (Or.inr ?_)
        refine ihs tbl _ _ hbs ?_ (idsOfT_parts hnd).2.2.1
          (fun q hq hkq => huniq q (mem_instrs_sibs hq) hkq) h hs
        exact cseGo_pendOk S kids _ _ _ hbk (cseBlockGo_pendOk b S is tbl 0 pend er hbis hp)

/-- Cross-block completeness through the preorder walk: when the block of y
strictly dominates the block of x, both eligible with the same key and no
other instruction of the forest carrying that key, the walk inserts y when
visiting its block and eliminates x in favor of y when visiting the
dominated block. -/
theorem cseGo_cross (S : List Nat) (k : CKey) (x y : Instr)
    (hkx : instrKey x = k) (hky : instrKey y = k)
    (hex : ignoreForCSE x = false) (hey : ignoreForCSE y = false)
    (byB bx : Nat) (ys₁ ys₂ xs₁ xs₂ : List Instr) :
    ∀ (t : DomT) (tbl : List Entry) (pend : List Subst) (er : List Nat),
      TOk S t → PendOk S pend → (idsOfT t).Nodup → (bidsOfT t).Nodup →
      (∀ i ∈ instrsOfT t, instrKey i = k → i.id = x.id ∨ i.id = y.id) →
      lookupKey tbl k = none →
      strictAnc t byB bx = true →
      blockOfT t byB = some (ys₁ ++ y :: ys₂) →
      blockOfT t bx = some (xs₁ ++ x :: xs₂) →
      (⟨x.id, bx, xs₁.length, y.id, byB, ys₁.length⟩ : Elim) ∈
        (cseGo tbl pend er t).2.2 := by
  intro t
  induction t with
  | nil =>
    intro tbl pend er _ _ _ _ _ _ hanc
    exact absurd hanc (by simp [strictAnc])
  | node b is kids sibs ihk ihs =>
    intro tbl pend er ht hp hnd hbnd huniq h hanc hBy hBx
    obtain ⟨hbis, hbk, hbs⟩ := TOk_node ht
    obtain ⟨hbk1, hbs1, hbk2, hbs2, hbdisj⟩ := bidsOfT_parts hbnd
    have hxBx : x ∈ xs₁ ++ x :: xs₂ :=
      List.mem_append_right _ (List.mem_cons_self x _)
    have hyBy : y ∈ ys₁ ++ y :: ys₂ :=
      List.mem_append_right _ (List.mem_cons_self y _)
    rw [cseGo]
    rw [strictAnc] at hanc
    rw [Bool.or_eq_true, Bool.or_eq_true] at hanc
    rcases hanc with (hcase | hcase) | hcase
    · rw [Bool.and_eq_true] at hcase
      have hbyB : b = byB := of_decide_eq_true hcase.1
      have hkidsx : hasBid kids bx = true := hcase.2
      have hbnex : b ≠ bx := by
        intro hbx
        exact hbk1 (hbx ▸ hasBid_mem_bids kids bx hkidsx)
      have his : is = ys₁ ++ y :: ys₂ := by
        rw [blockOfT, if_pos hbyB] at hBy
        exact Option.some.inj hBy
      have hkBx : blockOfT kids bx = some (xs₁ ++ x :: xs₂) := by
        rcases blockOfT_resolve b is kids sibs bx _ hBx hbnex with hk2 | ⟨hkn, _⟩
        · exact hk2
        · have hiss := (hasBid_isSome kids bx).mp hkidsx
          rw [hkn] at hiss
          exact absurd hiss (by simp)
      have hnd_is : (is.map (fun i => i.id)).Nodup := (idsOfT_parts hnd).1
      have hfree : ∀ i ∈ ys₁, instrKey i ≠ k := by
        intro i hi hik
        have hiis : i ∈ instrsOfT (.node b is kids sibs) :=
          mem_instrs_is (by rw [his]; exact List.mem_append_left _ hi)
        rcases huniq i hiis hik with hxid | hyid
        · have hib : hasInstrAt (.node b is kids sibs) b i.id = true :=
            hasInstrAt_lift_is i (by rw [his]; exact List.mem_append_left _ hi)
          have hxk : hasInstrAt (.node b is kids sibs) bx x.id = true :=
            hasInstrAt_lift_kids (blockOfT_hasInstrAt kids bx _ hkBx x hxBx)
          rw [hxid] at hib
          exact hbnex (hasInstrAt_unique _ hnd b bx x.id hib hxk)
        · rw [his, List.map_append, List.nodup_append] at hnd_is
          have hid1 : i.id ∈ ys₁.map (fun q => q.id) := List.mem_map.mpr ⟨i, hi, rfl⟩
          have : y.id ∈ (y :: ys₂).map (fun q => q.id) :=
            List.mem_map.mpr ⟨y, List.mem_cons_self y _, rfl⟩
          rw [← hyid] at this
          exact hnd_is.2.2 hid1 this
      have hl : lookupKey (cseBlockGo b tbl 0 pend er is).1 k =
          some ⟨k, y.id, b, ys₁.length⟩ := by
        rw [his]
        exact cseBlockGo_insert_y b S k y hky hey ys₁ ys₂ tbl 0 pend er
          (by rw [← his]; exact hbis) hp hfree h ys₁.length (by omega)
      refine List.mem_append.mpr (Or.inl (List.mem_append.mpr (Or.inr ?_)))
      rw [← hbyB]
      exact cseGo_hit_x S k ⟨k, y.id, b, ys₁.length⟩ x hkx hex bx xs₁ xs₂ kids
        (cseBlockGo b tbl 0 pend er is).1 (cseBlockGo b tbl 0 pend er is).2.1
        (cseBlockGo b tbl 0 pend er is).2.2.1 hbk
        (cseBlockGo_pendOk b S is tbl 0 pend er hbis hp) hl hkBx
    · obtain ⟨hky2, hkx2⟩ := strictAnc_hasBid kids byB bx hcase
      have hbney : b ≠ byB := fun hbx => hbk1 (hbx ▸ hasBid_mem_bids kids byB hky2)
      have hbnex : b ≠ bx := fun hbx => hbk1 (hbx ▸ hasBid_mem_bids kids bx hkx2)
      have hkBy : blockOfT kids byB = some (ys₁ ++ y :: ys₂) := by
        rcases blockOfT_resolve b is kids sibs byB _ hBy hbney with hk2 | ⟨hkn, _⟩
        · exact hk2
        · have := (hasBid_isSome kids byB).mp hky2
          rw [hkn] at this
          exact absurd this (by simp)
      have hkBx : blockOfT kids bx = some (xs₁ ++ x :: xs₂) := by
        rcases blockOfT_resolve b is kids sibs bx _ hBx hbnex with hk2 | ⟨hkn, _⟩
        · exact hk2
        · have := (hasBid_isSome kids bx).mp hkx2
          rw [hkn] at this
          exact absurd this (by simp)
      have hfree_is : ∀ i ∈ is, instrKey i ≠ k := by
        intro i hi hik
        have hiis : i ∈ instrsOfT (.node b is kids sibs) := mem_instrs_is hi
        have hib : hasInstrAt (.node b is kids sibs) b i.id = true :=
          hasInstrAt_lift_is i hi
        rcases huniq i hiis hik with hxid | hyid
        · have hxk : hasInstrAt (.node b is kids sibs) bx x.id = true :=
            hasInstrAt_lift_kids (blockOfT_hasInstrAt kids bx _ hkBx x hxBx)
          rw [hxid] at hib
          exact hbnex (hasInstrAt_unique _ hnd b bx x.id hib hxk)
        · have hyk : hasInstrAt (.node b is kids sibs) byB y.id = true :=
            hasInstrAt_lift_kids (blockOfT_hasInstrAt kids byB _ hkBy y hyBy)
          rw [hyid] at hib
          exact hbney (hasInstrAt_unique _ hnd b byB y.id hib hyk)
      refine List.mem_append.mpr (Or.inl (List.mem_append.mpr (Or.inr ?_)))
      refine ihk _ _ _ hbk ?_ (idsOfT_parts hnd).2.1 hbk2
        (fun q hq hkq => huniq q (mem_instrs_kids hq) hkq) ?_ hcase hkBy hkBx
      · exact cseBlockGo_pendOk b S is tbl 0 pend er hbis hp
      · exact cseBlockGo_none b S k is tbl 0 pend er hbis hp hfree_is h
    · obtain ⟨hsy, hsx⟩ := strictAnc_hasBid sibs byB bx hcase
      have hbney : b ≠ byB := fun hbx => hbs1 (hbx ▸ hasBid_mem_bids sibs byB hsy)
      have hbnex : b ≠ bx := fun hbx => hbs1 (hbx ▸ hasBid_mem_bids sibs bx hsx)
      have hkfy : hasBid kids byB = false := by
        cases hh : hasBid kids byB
        · rfl
        · exact absurd (hasBid_mem_bids sibs byB hsy)
            (hbdisj (hasBid_mem_bids kids byB hh))
      have hkfx : hasBid kids bx = false := by
        cases hh : hasBid kids bx
        · rfl
        · exact absurd (hasBid_mem_bids sibs bx hsx)
            (hbdisj (hasBid_mem_bids kids bx hh))
      have hsBy : blockOfT sibs byB = some (ys₁ ++ y :: ys₂) := by
        rcases blockOfT_resolve b is kids sibs byB _ hBy hbney with hk2 | ⟨_, hss⟩
        · have := (hasBid_isSome kids byB).mpr (by rw [hk2]; rfl)
          rw [hkfy] at this
          exact absurd this (by simp)
        · exact hss
      have hsBx : blockOfT sibs bx = some (xs₁ ++ x :: xs₂) := by
        rcases blockOfT_resolve b is kids sibs bx _ hBx hbnex with hk2 | ⟨_, hss⟩
        · have := (hasBid_isSome kids bx).mpr (by rw [hk2]; rfl)
          rw [hkfx] at this
          exact absurd this (by simp)
        · exact hss
      refine List.mem_append.mpr (Or.inr ?_)
      refine ihs tbl _ _ hbs ?_ (idsOfT_parts hnd).2.2.1 hbs2
        (fun q hq hkq => huniq q (mem_instrs_sibs hq) hkq) h hcase hsBy hsBx
      exact cseGo_pendOk S kids _ _ _ hbk (cseBlockGo_pendOk b S is tbl 0 pend er hbis hp)

theorem cseBlockGo_er_mono (bid : Nat) :
    ∀ (l : List Instr) (tbl : List Entry) (pos : Nat) (pend : List Subst) (er : List Nat),
      ∀ z ∈ er, z ∈ (cseBlockGo bid tbl pos pend er l).2.2.1 := by
  intro l
  induction l with
  | nil => intro tbl pos pend er z hz; exact hz
  | cons i rest ih =>
    intro tbl pos pend er z hz
    rw [cseBlockGo]
    by_cases hig : ignoreForCSE (applySubs pend i) = true
    · rw [if_pos hig]
      exact ih tbl (pos + 1) pend er z hz
    · rw [if_neg hig]
      cases hlk : lookupKey tbl (instrKey (applySubs pend i)) with
      | some en => exact ih tbl (pos + 1) _ _ z (List.mem_cons_of_mem _ hz)
      | none => exact ih _ (pos + 1) pend er z hz

theorem cseGo_er_mono :
    ∀ (t : DomT) (tbl : List Entry) (pend : List Subst) (er : List Nat),
      ∀ z ∈ er, z ∈ (cseGo tbl pend er t).2.1 := by
  intro t
  induction t with
  | nil => intro tbl pend er z hz; exact hz
  | node b is kids sibs ihk ihs =>
    intro tbl pend er z hz
    rw [cseGo]
    exact ihs tbl _ _ z (ihk _ _ _ z (cseBlockGo_er_mono b is tbl 0 pend er z hz))

theorem cseBlockGo_elim_er (bid : Nat) :
    ∀ (l : List Instr) (tbl : List Entry) (pos : Nat) (pend : List Subst) (er : List Nat),
      ∀ e ∈ (cseBlockGo bid tbl pos pend er l).2.2.2,
        e.xId ∈ (cseBlockGo bid tbl pos pend er l).2.2.1 := by
  intro l
  induction l with
  | nil => intro tbl pos pend er e he; exact absurd he (List.not_mem_nil e)
  | cons i rest ih =>
    intro tbl pos pend er e he
    rw [cseBlockGo] at he ⊢
    by_cases hig : ignoreForCSE (applySubs pend i) = true
    · rw [if_pos hig] at he ⊢
      exact ih tbl (pos + 1) pend er e he
    · rw [if_neg hig] at he ⊢
      cases hlk : lookupKey tbl (instrKey (applySubs pend i)) with
      | some en =>
        rw [hlk] at he
        rcases List.mem_cons.mp he with h | h
        · rw [h]
          exact cseBlockGo_er_mono bid rest tbl (pos + 1) _ _ i.id
            (List.mem_cons_self i.id er)
        · exact ih tbl (pos + 1) _ _ e h
      | none =>
        rw [hlk] at he
        exact ih _ (pos + 1) pend er e he

theorem cseGo_elim_er :
    ∀ (t : DomT) (tbl : List Entry) (pend : List Subst) (er : List Nat),
      ∀ e ∈ (cseGo tbl pend er t).2.2, e.xId ∈ (cseGo tbl pend er t).2.1 := by
  intro t
  induction t with
  | nil => intro tbl pend er e he; exact absurd he (List.not_mem_nil e)
  | node b is kids sibs ihk ihs =>
    intro tbl pend er e he
    rw [cseGo] at he ⊢
    rcases List.mem_append.mp he with he2 | he3
    · rcases List.mem_append.mp he2 with heb | hek
      · exact cseGo_er_mono sibs tbl _ _ e.xId
          (cseGo_er_mono kids _ _ _ e.xId
            (cseBlockGo_elim_er b is tbl 0 pend er e heb))
      · exact cseGo_er_mono sibs tbl _ _ e.xId (ihk _ _ _ e hek)
    · exact ihs tbl _ _ e he3

/-- Identities of erased instructions never survive into the reconstructed
forest. -/
theorem substEraseT_ids :
    ∀ (t : DomT) (pend : List Subst) (er : List Nat) (z : Nat), z ∈ er →
      z ∉ idsOfT (substEraseT pend er t) := by
  intro t
  induction t with
  | nil => intro pend er z _ hc; exact absurd hc (List.not_mem_nil z)
  | node b is kids sibs ihk ihs =>
    intro pend er z hz hc
    rw [substEraseT] at hc
    rw [idsOfT_node] at hc
    rcases List.mem_append.mp hc with h | h
    · obtain ⟨j, hj, hjid⟩ := List.mem_map.mp h
      obtain ⟨i0, hi0, hi0j⟩ := List.mem_map.mp hj
      have hid : i0.id = z := by rw [← hjid, ← hi0j, applySubs_id_eq]
      have hfil := (List.mem_filter.mp hi0).2
      rw [hid] at hfil
      have : z ∈ er := hz
      have : er.contains z = true := List.elem_iff.mpr hz
      rw [this] at hfil
      exact absurd hfil (by simp)
    · rcases List.mem_append.mp h with h | h
      · exact ihk pend er z hz h
      · exact ihs pend er z hz h

theorem cseBlockGo_elims_x (bid : Nat) :
    ∀ (l : List Instr) (tbl : List Entry) (pos : Nat) (pend : List Subst) (er : List Nat),
      ∀ e ∈ (cseBlockGo bid tbl pos pend er l).2.2.2, ∃ i ∈ l, i.id = e.xId := by
  intro l
  induction l with
  | nil => intro tbl pos pend er e he; exact absurd he (List.not_mem_nil e)
  | cons i rest ih =>
    intro tbl pos pend er e he
    rw [cseBlockGo] at he
    by_cases hig : ignoreForCSE (applySubs pend i) = true
    · rw [if_pos hig] at he
      obtain ⟨q, hq, hqe⟩ := ih tbl (pos + 1) pend er e he
      exact ⟨q, List.mem_cons_of_mem _ hq, hqe⟩
    · rw [if_neg hig] at he
      cases hlk : lookupKey tbl (instrKey (applySubs pend i)) with
      | some en =>
        rw [hlk] at he
        rcases List.mem_cons.mp he with h | h
        · exact ⟨i, List.mem_cons_self i rest, by rw [h]⟩
        · obtain ⟨q, hq, hqe⟩ := ih tbl (pos + 1) _ _ e h
          exact ⟨q, List.mem_cons_of_mem _ hq, hqe⟩
      | none =>
        rw [hlk] at he
        obtain ⟨q, hq, hqe⟩ := ih _ (pos + 1) pend er e he
        exact ⟨q, List.mem_cons_of_mem _ hq, hqe⟩

theorem cseBlockGo_elims_y (bid : Nat) :
    ∀ (l : List Instr) (tbl : List Entry) (pos : Nat) (pend : List Subst) (er : List Nat),
      ∀ e ∈ (cseBlockGo bid tbl pos pend er l).2.2.2,
        (∃ en ∈ tbl, e.yId = en.iid ∧ e.yBid = en.bid) ∨
        (∃ i ∈ l, i.id = e.yId ∧ e.yBid = bid) := by
  intro l
  induction l with
  | nil => intro tbl pos pend er e he; exact absurd he (List.not_mem_nil e)
  | cons i rest ih =>
    intro tbl pos pend er e he
    rw [cseBlockGo] at he
    by_cases hig : ignoreForCSE (applySubs pend i) = true
    · rw [if_pos hig] at he
      rcases ih tbl (pos + 1) pend er e he with h | ⟨q, hq, hqe⟩
      · exact Or.inl h
      · exact Or.inr ⟨q, List.mem_cons_of_mem _ hq, hqe⟩
    · rw [if_neg hig] at he
      cases hlk : lookupKey tbl (instrKey (applySubs pend i)) with
      | some en =>
        rw [hlk] at he
        rcases List.mem_cons.mp he with h | h
        · refine Or.inl ⟨en, List.mem_of_find?_eq_some hlk, ?_, ?_⟩
          · rw [h]
          · rw [h]
        · rcases ih tbl (pos + 1) _ _ e h with hh | ⟨q, hq, hqe⟩
          · exact Or.inl hh
          · exact Or.inr ⟨q, List.mem_cons_of_mem _ hq, hqe⟩
      | none =>
        rw [hlk] at he
        rcases ih _ (pos + 1) pend er e he with ⟨en, hen, hy1, hy2⟩ | ⟨q, hq, hqe⟩
        · rcases List.mem_cons.mp hen with h | h
          · refine Or.inr ⟨i, List.mem_cons_self i rest, ?_, ?_⟩
            · rw [hy1, h]
            · rw [hy2, h]
          · exact Or.inl ⟨en, h, hy1, hy2⟩
        · exact Or.inr ⟨q, List.mem_cons_of_mem _ hq, hqe⟩

theorem cseBlockGo_tblId (bid : Nat) :
    ∀ (l : List Instr) (tbl : List Entry) (pos : Nat) (pend : List Subst) (er : List Nat),
      ∀ en ∈ (cseBlockGo bid tbl pos pend er l).1,
        en ∈ tbl ∨ ∃ i ∈ l, i.id = en.iid ∧ en.bid = bid := by
  intro l
  induction l with
  | nil => intro tbl pos pend er en hen; exact Or.inl hen
  | cons i rest ih =>
    intro tbl pos pend er en hen
    rw [cseBlockGo] at hen
    by_cases hig : ignoreForCSE (applySubs pend i) = true
    · rw [if_pos hig] at hen
      rcases ih tbl (pos + 1) pend er en hen with h | ⟨q, hq, hqe⟩
      · exact Or.inl h
      · exact Or.inr ⟨q, List.mem_cons_of_mem _ hq, hqe⟩
    · rw [if_neg hig] at hen
      cases hlk : lookupKey tbl (instrKey (applySubs pend i)) with
      | some en2 =>
        rw [hlk] at hen
        rcases ih tbl (pos + 1) _ _ en hen with h | ⟨q, hq, hqe⟩
        · exact Or.inl h
        · exact Or.inr ⟨q, List.mem_cons_of_mem _ hq, hqe⟩
      | none =>
        rw [hlk] at hen
        rcases ih _ (pos + 1) pend er en hen with h | ⟨q, hq, hqe⟩
        · rcases List.mem_cons.mp h with hh | hh
          · refine Or.inr ⟨i, List.mem_cons_self i rest, ?_, ?_⟩
            · rw [hh]
            · rw [hh]
          · exact Or.inl hh
        · exact Or.inr ⟨q, List.mem_cons_of_mem _ hq, hqe⟩

/-- Every recorded elimination names, on the erased side, an instruction of
the node it was erased from, and, on the replacement side, either an entry
of the incoming scope or an instruction of the forest at its recorded
block. -/
theorem cseGo_elims_loc :
    ∀ (t : DomT) (tbl : List Entry) (pend : List Subst) (er : List Nat),
      ∀ e ∈ (cseGo tbl pend er t).2.2,
        hasInstrAt t e.xBid e.xId = true ∧
        ((∃ en ∈ tbl, e.yId = en.iid ∧ e.yBid = en.bid) ∨
         hasInstrAt t e.yBid e.yId = true) := by
  intro t
  induction t with
  | nil => intro tbl pend er e he; exact absurd he (List.not_mem_nil e)
  | node b is kids sibs ihk ihs =>
    intro tbl pend er e he
    rw [cseGo] at he
    rcases List.mem_append.mp he with he2 | he3
    · rcases List.mem_append.mp he2 with heb | hek
      · obtain ⟨hxb, _, _⟩ := cseBlockGo_elims b is tbl 0 pend er e heb
        obtain ⟨i, hi, hie⟩ := cseBlockGo_elims_x b is tbl 0 pend er e heb
        constructor
        · rw [hxb, ← hie]
          exact hasInstrAt_lift_is i hi
        · rcases cseBlockGo_elims_y b is tbl 0 pend er e heb with h | ⟨q, hq, hq1, hq2⟩
          · exact Or.inl h
          · refine Or.inr ?_
            rw [hq2, ← hq1]
            exact hasInstrAt_lift_is q hq
      · obtain ⟨hx, hy⟩ := ihk _ _ _ e hek
        refine ⟨hasInstrAt_lift_kids hx, ?_⟩
        rcases hy with ⟨en, hen, hy1, hy2⟩ | h
        · rcases cseBlockGo_tblId b is tbl 0 pend er en hen with h | ⟨q, hq, hq1, hq2⟩
          · exact Or.inl ⟨en, h, hy1, hy2⟩
          · refine Or.inr ?_
            rw [hy2, hq2, hy1, ← hq1]
            exact hasInstrAt_lift_is q hq
        · exact Or.inr (hasInstrAt_lift_kids h)
    · obtain ⟨hx, hy⟩ := ihs tbl _ _ e he3
      refine ⟨hasInstrAt_lift_sibs hx, ?_⟩
      rcases hy with h | h
      · exact Or.inl h
      · exact Or.inr (hasInstrAt_lift_sibs h)

/-- Two literal-match instructions carry the same structural key. -/
theorem instrKey_eq_of_literalMatch (a b : Instr) (h : isLiteralMatch a b = true) :
    instrKey a = instrKey b := by
  obtain ⟨h1, h2, h3, h4⟩ := (isLiteralMatch_iff a b).mp h
  unfold instrKey
  rw [h1, h2]
  have hops : a.operands.map (fun v => v.id) = b.operands.map (fun v => v.id) := by
    apply List.ext_getElem
    · simp [h3]
    · intro n hn1 hn2
      rw [List.getElem_map, List.getElem_map]
      have hn : n < a.operands.length := by simpa using hn1
      have hx := h4 n hn
      unfold Instr.operand at hx
      rw [List.getD_eq_getElem _ _ hn, List.getD_eq_getElem _ _ (by omega : n < b.operands.length)] at hx
      exact hx
  rw [hops]


/-- Decidability of operand externality on a concrete forest. -/
instance opsExternalDec (t : DomT) : Decidable (opsExternal t) := by
  unfold opsExternal
  infer_instance

/-- C2: the dominance-scoped CSE pass merges exactly along dominance. Over a
dominator forest whose operands reference only values defined outside it,
with distinct instruction and block identities, for eligible literal-match
instructions x and y whose key no third instruction carries: (a) if the
block of y strictly dominates the block of x, the pass records the
elimination of x in favor of y at their pre-pass positions, the counter is
at least one and x is erased from the reconstructed forest; (b) likewise
when y precedes x inside one block; (c) if neither block dominates the
other and the blocks differ, no recorded elimination merges x with y in
either direction. The pass is modelled from the specification, being
absent from src/p2.cpp. -/
theorem c2_cse_dominance_merge (t : DomT) (x y : Instr)
    (hops : opsExternal t)
    (hnd : (idsOfT t).Nodup)
    (hbnd : (bidsOfT t).Nodup)
    (hlm : isLiteralMatch y x = true)
    (hex : ignoreForCSE x = false) (hey : ignoreForCSE y = false)
    (huniq : ∀ z ∈ instrsOfT t, instrKey z = instrKey x → z.id = x.id ∨ z.id = y.id) :
    (∀ (byB bx : Nat) (ys₁ ys₂ xs₁ xs₂ : List Instr),
      strictAnc t byB bx = true →
      blockOfT t byB = some (ys₁ ++ y :: ys₂) →
      blockOfT t bx = some (xs₁ ++ x :: xs₂) →
      (⟨x.id, bx, xs₁.length, y.id, byB, ys₁.length⟩ : Elim) ∈ (runCSE t).2.2 ∧
        1 ≤ (runCSE t).2.1 ∧ x.id ∉ idsOfT (runCSE t).1) ∧
    (∀ (bb : Nat) (l₁ l₂ l₃ : List Instr),
      blockOfT t bb = some (l₁ ++ y :: (l₂ ++ x :: l₃)) →
      (⟨x.id, bb, l₁.length + 1 + l₂.length, y.id, bb, l₁.length⟩ : Elim) ∈ (runCSE t).2.2 ∧
        1 ≤ (runCSE t).2.1 ∧ x.id ∉ idsOfT (runCSE t).1) ∧
    (∀ (bx byB : Nat),
      hasInstrAt t bx x.id = true → hasInstrAt t byB y.id = true →
      strictAnc t byB bx = false → strictAnc t bx byB = false → byB ≠ bx →
      ∀ e ∈ (runCSE t).2.2,
        ¬(e.xId = x.id ∧ e.yId = y.id) ∧ ¬(e.xId = y.id ∧ e.yId = x.id)) := by
  have hky : instrKey y = instrKey x := instrKey_eq_of_literalMatch y x hlm
  have ht : TOk (idsOfT t) t := by
    intro i hi
    exact ⟨fun v hv => hops i hi v hv, List.mem_map.mpr ⟨i, hi, rfl⟩⟩
  have hp : PendOk (idsOfT t) [] := fun s hs => absurd hs (List.not_mem_nil s)
  have hrw : (runCSE t).2.2 = (cseGo [] [] [] t).2.2 := rfl
  refine ⟨?_, ?_, ?_⟩
  · intro byB bx ys₁ ys₂ xs₁ xs₂ hanc hBy hBx
    have hmem := cseGo_cross (idsOfT t) (instrKey x) x y rfl hky hex hey
      byB bx ys₁ ys₂ xs₁ xs₂ t [] [] [] ht hp hnd hbnd huniq rfl hanc hBy hBx
    refine ⟨hmem, ?_, ?_⟩
    · exact List.length_pos.mpr (List.ne_nil_of_mem hmem)
    · have her := cseGo_elim_er t [] [] [] _ hmem
      exact substEraseT_ids t (cseGo [] [] [] t).1 (cseGo [] [] [] t).2.1 x.id her
  · intro bb l₁ l₂ l₃ hB
    have hmem := cseGo_same (idsOfT t) (instrKey x) x y rfl hky hex hey bb l₁ l₂ l₃
      t [] [] [] ht hp hnd huniq rfl hB
    refine ⟨hmem, ?_, ?_⟩
    · exact List.length_pos.mpr (List.ne_nil_of_mem hmem)
    · have her := cseGo_elim_er t [] [] [] _ hmem
      exact substEraseT_ids t (cseGo [] [] [] t).1 (cseGo [] [] [] t).2.1 x.id her
  · intro bx byB hx hy hanc1 hanc2 hne e he
    rw [hrw] at he
    obtain ⟨hxl, hyl⟩ := cseGo_elims_loc t [] [] [] e he
    obtain ⟨_, hsnd⟩ := cseGo_elims t [] [] [] e he
    have hyl2 : hasInstrAt t e.yBid e.yId = true := by
      rcases hyl with ⟨en, hen, _⟩ | h
      · exact absurd hen (List.not_mem_nil en)
      · exact h
    have hsnd2 : strictAnc t e.yBid e.xBid = true ∨ (e.yBid = e.xBid ∧ e.yIdx < e.xIdx) := by
      rcases hsnd with ⟨en, hen, _⟩ | h | h
      · exact absurd hen (List.not_mem_nil en)
      · exact Or.inl h
      · exact Or.inr h
    constructor
    · rintro ⟨hxid, hyid⟩
      rw [hxid] at hxl
      rw [hyid] at hyl2
      have hbx : e.xBid = bx := hasInstrAt_unique t hnd e.xBid bx x.id hxl hx
      have hby : e.yBid = byB := hasInstrAt_unique t hnd e.yBid byB y.id hyl2 hy
      rcases hsnd2 with h | h
      · rw [hbx, hby] at h
        rw [hanc1] at h
        exact Bool.false_ne_true h
      · exact hne (by rw [← hby, ← hbx]; exact h.1)
    · rintro ⟨hxid, hyid⟩
      rw [hxid] at hxl
      rw [hyid] at hyl2
      have hbx : e.xBid = byB := hasInstrAt_unique t hnd e.xBid byB y.id hxl hy
      have hby : e.yBid = bx := hasInstrAt_unique t hnd e.yBid bx x.id hyl2 hx
      rcases hsnd2 with h | h
      · rw [hbx, hby] at h
        rw [hanc2] at h
        exact Bool.false_ne_true h
      · exact hne (by rw [← hbx, ← hby]; exact h.1.symm)

/-- C2 witness: on the chain tree every hypothesis holds and the
cross-block clause applies to addE2 in the dominated block 2 against addE1
in block 1. -/
theorem c2_cse_dominance_merge_witness :
    (opsExternal domChain ∧ (idsOfT domChain).Nodup ∧ (bidsOfT domChain).Nodup ∧
      isLiteralMatch addE1 addE2 = true) ∧
    ((⟨9, 2, 0, 8, 1, 0⟩ : Elim) ∈ (runCSE domChain).2.2 ∧
      1 ≤ (runCSE domChain).2.1 ∧ 9 ∉ idsOfT (runCSE domChain).1) := by
  refine ⟨⟨by decide, by decide, by decide, by decide⟩, ?_⟩
  have h := (c2_cse_dominance_merge domChain addE2 addE1 (by decide) (by decide)
    (by decide) (by decide) (by decide) (by decide) (by decide)).1
  exact h 1 2 [] [retv] [] [retE] (by decide) (by decide) (by decide)

end P2
